import Mathlib

/-!
Verification of the crawl-orchestration core of the `golang-crawl-ai-summary`
repository, shallowly embedded in Lean 4.

Go byte-strings are modelled as `List Char`.  The crawler package
(`Crawl`, `crawlURL`, `isAllowedHost`), the summarizer
(`OllamaSummarizer.Summarize`) and the fragment of `net/url`
(`Parse`, `IsAbs`, `ResolveReference`, `String`) that the crawler exercises
are embedded as executable definitions; external effects (HTTP fetch, the
Playwright renderer, the Ollama endpoint, context cancellation) are supplied
as explicit oracles.
-/

namespace Crawler

abbrev Str := List Char

/-- Model of Go `strings.Contains s pat` (substring test). -/
def containsSub (s pat : Str) : Bool :=
  match s with
  | [] => pat.isEmpty
  | _ :: t => pat.isPrefixOf s || containsSub t pat

/-- Model of Go `strings.ToLower` restricted to ASCII case mapping. -/
def toLowerStr (s : Str) : Str := s.map Char.toLower

/-- Model of Go `strings.TrimRight s "/"`: drop every trailing `/`. -/
def trimSlashes (s : Str) : Str := (s.reverse.dropWhile (· = '/')).reverse

/-- Model of Go `strings.TrimSpace` (whitespace trim at both ends). -/
def trimSpaceStr (s : Str) : Str :=
  ((s.dropWhile Char.isWhitespace).reverse.dropWhile Char.isWhitespace).reverse

/-! ### Model of the fragment of Go `net/url` used by the crawler

The crawler calls `url.Parse`, `URL.IsAbs`, `URL.ResolveReference` and
`URL.String` from the Go standard library (not part of this repository).
The definitions below model the hierarchical subset those calls exercise on
page links (which the renderer pre-filters to `http://`/`https://` prefixed
strings): scheme, authority host, path, raw query with Go's `ForceQuery`
flag, and fragment.  Percent-escaping, user info, port validation,
dot-segment removal in reference resolution and ASCII-lowercasing of the
scheme are omitted; no claim below depends on them. -/

/-- A character Go's URL parser accepts: not an ASCII control character. -/
def okChar (c : Char) : Bool := 32 ≤ c.toNat && c.toNat ≠ 127

/-- Go rejects URLs containing ASCII control characters; `ctlFree` holds of
the strings it accepts. -/
def ctlFree (s : Str) : Bool := s.all okChar

/-- Split at the first occurrence of `c`: the part before, and the part
after (empty when `c` is absent, matching Go dropping an empty fragment). -/
def cutAt (c : Char) (s : Str) : Str × Str :=
  (s.takeWhile (· ≠ c), (s.dropWhile (· ≠ c)).drop 1)

/-- Outcome of Go's `getScheme`: a malformed scheme (leading `:`), no scheme
(relative reference), or a scheme plus the remainder after the `:`. -/
inductive SchemeRes where
  | err : SchemeRes
  | noScheme : SchemeRes
  | found (scheme rest : Str) : SchemeRes
deriving DecidableEq, Repr

/-- Scheme characters allowed after the leading alphabetic character. -/
def schemeTailChar (c : Char) : Bool :=
  c.isAlpha || c.isDigit || c = '+' || c = '-' || c = '.'

/-- Scan for `scheme:` exactly as Go `getScheme` does: alphabetic first
character, then alphanumerics and `+ - .` until a `:`; any other character
(or a digit first) means the reference has no scheme. -/
def getSchemeAux (acc : Str) : Str → SchemeRes
  | [] => .noScheme
  | c :: rest =>
    if c = ':' then (if acc.isEmpty then .err else .found acc.reverse rest)
    else if c.isAlpha then getSchemeAux (c :: acc) rest
    else if c.isDigit || c = '+' || c = '-' || c = '.' then
      (if acc.isEmpty then .noScheme else getSchemeAux (c :: acc) rest)
    else .noScheme

def getScheme (s : Str) : SchemeRes := getSchemeAux [] s

/-- The parsed-URL record mirroring the Go `url.URL` fields the crawler
relies on.  `forceQuery` is Go's `ForceQuery`: the URL ends in `?` with an
empty query, which `String` must reproduce. -/
structure GoURL where
  scheme : Str
  host : Str
  path : Str
  rawQuery : Str
  forceQuery : Bool
  fragment : Str
deriving DecidableEq, Repr

/-- Go query split: a single trailing `?` sets `ForceQuery`; otherwise cut
at the first `?`. -/
def splitQuery (s : Str) : Str × Str × Bool :=
  if s.getLast? == some '?' && ! s.dropLast.contains '?' then (s.dropLast, [], true)
  else ((cutAt '?' s).1, (cutAt '?' s).2, false)

/-- Split an authority: host up to the first `/`, the rest is the path. -/
def splitAuthority (s : Str) : Str × Str :=
  (s.takeWhile (· ≠ '/'), s.dropWhile (· ≠ '/'))

/-- Assemble a `GoURL` from scheme, post-scheme remainder and fragment.
Authority detection follows Go: a remainder starting `//` is an authority,
except that `///…` is a rootless path (Go applies this exception to
scheme-less references and handles `scheme:////x` via its `OmitHost` flag;
this model uses the path reading uniformly — both print back to the same
string). -/
def parseAfterScheme (sch rest frag : Str) : GoURL :=
  if (splitQuery rest).1.take 2 = ['/', '/'] ∧ ¬ (splitQuery rest).1.take 3 = ['/', '/', '/'] then
    { scheme := sch,
      host := (splitAuthority ((splitQuery rest).1.drop 2)).1,
      path := (splitAuthority ((splitQuery rest).1.drop 2)).2,
      rawQuery := (splitQuery rest).2.1, forceQuery := (splitQuery rest).2.2,
      fragment := frag }
  else
    { scheme := sch, host := [], path := (splitQuery rest).1,
      rawQuery := (splitQuery rest).2.1, forceQuery := (splitQuery rest).2.2,
      fragment := frag }

/-- Model of Go `url.Parse`: reject control characters, cut off the
fragment, extract the scheme, then query and authority. -/
def parseURL (s : Str) : Option GoURL :=
  if ¬ ctlFree s then none
  else
    match getScheme (cutAt '#' s).1 with
    | .err => none
    | .noScheme => some (parseAfterScheme [] (cutAt '#' s).1 (cutAt '#' s).2)
    | .found sch rest => some (parseAfterScheme sch rest (cutAt '#' s).2)

/-- Go `URL.IsAbs`: the URL has a scheme. -/
def isAbs (u : GoURL) : Bool := ! u.scheme.isEmpty

/-- Model of Go `URL.String` on the hierarchical subset. -/
def urlString (u : GoURL) : Str :=
  (if u.scheme.isEmpty then [] else u.scheme ++ [':']) ++
  (if u.host.isEmpty then [] else '/' :: '/' :: u.host) ++
  u.path ++
  (if u.forceQuery || ! u.rawQuery.isEmpty then '?' :: u.rawQuery else []) ++
  (if u.fragment.isEmpty then [] else '#' :: u.fragment)

/-- Base directory of a path: everything up to and including the last `/`
(`/` when the path has none), so merged references get an absolute path. -/
def dirOf (p : Str) : Str :=
  if ((p.reverse.dropWhile (· ≠ '/')).reverse).isEmpty then ['/']
  else (p.reverse.dropWhile (· ≠ '/')).reverse

/-- RFC 3986 path merge as performed by Go `resolvePath`, without
dot-segment removal. -/
def mergePath (base r : Str) : Str :=
  if r.head? = some '/' then r else dirOf base ++ r

/-- Model of Go `URL.ResolveReference` on the cases the crawler reaches
(the crawler only resolves references without a scheme). -/
def resolveReference (base ref : GoURL) : GoURL :=
  if isAbs ref then ref
  else if ! ref.host.isEmpty then { ref with scheme := base.scheme }
  else if ref.path.isEmpty && ! ref.forceQuery && ref.rawQuery.isEmpty then
    { base with fragment := if ref.fragment.isEmpty then base.fragment else ref.fragment }
  else
    { scheme := base.scheme, host := base.host, path := mergePath base.path ref.path,
      rawQuery := ref.rawQuery, forceQuery := ref.forceQuery, fragment := ref.fragment }

/-- Lines 199-201 of part_000: resolve a parsed link against the base only
when it is not absolute. -/
def absOrResolve (base ref : GoURL) : GoURL :=
  if isAbs ref then ref else resolveReference base ref

/-- The link normalization performed in `crawlURL` (part_000 lines 191-204):
parse the raw link, resolve it against the final response URL when it is not
absolute, render it back to a string and strip trailing slashes.  `none`
models the `continue` on a link that fails to parse. -/
def cleanLink (base : GoURL) (link : Str) : Option Str :=
  match parseURL link with
  | none => none
  | some pl => some (trimSlashes (urlString (absOrResolve base pl)))

/-- A character other than `#` and `?` and not a control character: the
characters that survive into every component left of the fragment. -/
def cleanChar (c : Char) : Bool := !(c == '#') && !(c == '?') && okChar c

/-- A syntactically valid scheme: alphabetic first character, then scheme
tail characters. -/
def schemeOK : Str → Bool
  | [] => false
  | c :: rest => c.isAlpha && rest.all schemeTailChar

/-- Invariants satisfied by every URL `parseURL` or `resolveReference`
produces: component character sets, the path shape that makes
`URL.String ∘ Parse` the identity, and Go's `ForceQuery` discipline. -/
def pwfURL (u : GoURL) : Bool :=
  (u.scheme.isEmpty || schemeOK u.scheme) &&
  u.host.all (fun c => cleanChar c && !(c == '/')) &&
  u.path.all cleanChar &&
  (if u.host.isEmpty then (!(u.path.take 2 == ['/', '/']) || u.path.take 3 == ['/', '/', '/'])
   else (u.path.isEmpty || u.path.head? == some '/')) &&
  u.rawQuery.all (fun c => !(c == '#') && okChar c) &&
  (!u.forceQuery || u.rawQuery.isEmpty) &&
  u.fragment.all okChar

/-- A well-formed absolute URL: the parser invariants plus a valid scheme. -/
def wfURL (u : GoURL) : Bool := pwfURL u && schemeOK u.scheme

/-- Trailing-slash removal transported to the parsed representation: the
trailing slashes of `urlString u` sit in its last printed component. -/
def trimU (u : GoURL) : GoURL :=
  if ¬ u.fragment.isEmpty then { u with fragment := trimSlashes u.fragment }
  else if u.forceQuery then u
  else if ¬ u.rawQuery.isEmpty then
    (if (trimSlashes u.rawQuery).isEmpty then { u with rawQuery := [], forceQuery := true }
     else { u with rawQuery := trimSlashes u.rawQuery })
  else { u with path := trimSlashes u.path }

/-! ### The crawler package (src/unnamed/part_000) -/

/-- The crawler configuration (part_000 lines 28-33; `RateLimit` only feeds
the ticker and is not needed by any claim). -/
structure Config where
  maxDepth : Nat
  maxWorkers : Nat
  allowedHost : Str
deriving DecidableEq, Repr

/-- The per-Job error kinds, one per `fmt.Errorf` site in `crawlURL`. -/
inductive CrawlErr where
  | ctxErr : CrawlErr
  | reqCreateFailed : CrawlErr
  | fetchFailed : CrawlErr
  | non200 (status : Nat) : CrawlErr
  | disallowedHost (finalURL : Str) : CrawlErr
  | nonHTML (contentType : Str) : CrawlErr
  | renderFailed : CrawlErr
deriving DecidableEq, Repr

/-- The `Result` record (part_000 lines 35-42). -/
structure Result where
  url : Str
  content : Str
  links : List Str
  depth : Nat
  summary : Str
  error : Option CrawlErr
deriving DecidableEq, Repr

/-- What `crawlURL` observes of the HTTP response: status code,
Content-Type header, and the final post-redirect URL (`resp.Request.URL`). -/
structure FetchResp where
  status : Nat
  contentType : Str
  finalURL : GoURL
deriving DecidableEq, Repr

/-- The renderer collaborator's output (`parser.ParseResult`). -/
structure ParsedPage where
  text : Str
  links : List Str
deriving DecidableEq, Repr

/-- Oracle for the effects one `crawlURL` call performs: cancellation
observations at its two context checks, and the three external calls. -/
structure PageEnv where
  cancelAtLimiter : Bool
  reqCreateFails : Bool
  fetch : Except Unit FetchResp
  render : Except Unit ParsedPage
  summarize : Except Unit Str
deriving Repr

/-- `isAllowedHost` (part_000 lines 231-244): with no configured filter every
host is allowed; otherwise re-parse the URL string and test whether its host
contains the configured substring. -/
def isAllowedHost (cfg : Config) (urlStr : Str) : Bool :=
  if cfg.allowedHost.isEmpty then true
  else
    match parseURL urlStr with
    | none => false
    | some u => containsSub u.host cfg.allowedHost

/-- The dedup/collection loop over discovered links (part_000 lines
190-209): normalize each link, skip unparsable ones, and keep a link exactly
when `visited.LoadOrStore` reports it unseen.  Returns the kept links in
order together with the updated visited set. -/
def collectLinks (visited : List Str) (base : GoURL) : List Str → List Str × List Str
  | [] => ([], visited)
  | l :: rest =>
    match cleanLink base l with
    | none => collectLinks visited base rest
    | some cl =>
      if visited.contains cl then collectLinks visited base rest
      else
        let r := collectLinks (visited ++ [cl]) base rest
        (cl :: r.1, r.2)

/-- `crawlURL` (part_000 lines 115-229), with effects supplied by `env` and
the crawler's shared `visited` map passed explicitly.  Mirrors the source
step by step: the depth gate returns an empty `Result` immediately; then the
rate-limiter context check, request creation, fetch, status check, host
filter, content-type check, render, link collection, and summarization
(whose failure is logged but leaves `error` unset). -/
def crawlURL (cfg : Config) (env : PageEnv) (urlStr : Str) (depth : Nat)
    (visited : List Str) : Result × List Str :=
  let result : Result :=
    { url := urlStr, content := [], links := [], depth := depth,
      summary := [], error := none }
  if cfg.maxDepth ≤ depth then (result, visited)
  else if env.cancelAtLimiter then ({ result with error := some .ctxErr }, visited)
  else if env.reqCreateFails then ({ result with error := some .reqCreateFailed }, visited)
  else
    match env.fetch with
    | .error _ => ({ result with error := some .fetchFailed }, visited)
    | .ok resp =>
      if resp.status ≠ 200 then
        ({ result with error := some (.non200 resp.status) }, visited)
      else if ¬ isAllowedHost cfg (urlString resp.finalURL) then
        ({ result with error := some (.disallowedHost (urlString resp.finalURL)) }, visited)
      else if ¬ containsSub (toLowerStr resp.contentType) ("text/html".toList) then
        ({ result with error := some (.nonHTML resp.contentType) }, visited)
      else
        match env.render with
        | .error _ => ({ result with error := some .renderFailed }, visited)
        | .ok page =>
          let collected := collectLinks visited resp.finalURL page.links
          let summary :=
            if page.text.isEmpty then []
            else match env.summarize with
              | .ok s => s
              | .error _ => []
          ({ result with content := page.text, links := collected.1,
                         summary := summary }, collected.2)

/-- One worker iteration on a popped job (part_000 lines 88-98): the worker
always calls `crawlURL` with depth `0`, then publishes through a select that
drops the result when cancellation is observed first. -/
def processJob (cfg : Config) (env : PageEnv) (cancelAtPublish : Bool)
    (u : Str) (visited : List Str) : Option Result × List Str :=
  let r := crawlURL cfg env u 0 visited
  (if cancelAtPublish then none else some r.1, r.2)

/-- A send on a Go buffered channel: succeeds immediately iff the buffer has
room; `none` models the sender blocking. -/
def chanPush (cap : Nat) (buf : List α) (x : α) : Option (List α) :=
  if buf.length < cap then some (buf ++ [x]) else none

/-- Everything observable from one `Crawl` invocation. -/
structure CrawlOutcome where
  /-- Number of worker goroutines spawned (part_000 line 80). -/
  workersSpawned : Nat
  /-- Contents of the `jobs` channel after the only send, `jobs <- seedURL`
  (line 109); `none` would mean the send blocked. The channel is closed on
  line 110 and no other send exists in the package. -/
  frontier : Option (List Str)
  /-- The (url, depth) pairs workers run `crawlURL` on. -/
  dispatched : List (Str × Nat)
  /-- Results that reached the `results` channel. -/
  published : List Result
  /-- Final contents of the `visited` map. -/
  finalVisited : List Str
deriving Repr, DecidableEq

/-- `Crawl` (part_000 lines 63-113): validate the seed (parse failure or a
non-absolute URL is a synchronous error before anything is spawned), spawn
`maxWorkers` workers, push the seed as the only externally pushed job, close
the channel, and let the workers drain it.  The `visited` map starts empty:
the seed itself is never recorded in it. -/
def crawlRun (cfg : Config) (env : PageEnv) (cancelAtPublish : Bool)
    (seed : Str) : Except Str CrawlOutcome :=
  match parseURL seed with
  | none => .error ("invalid seed URL".toList)
  | some u =>
    if ¬ isAbs u then .error ("seed URL must be absolute".toList)
    else
      let pub := processJob cfg env cancelAtPublish seed []
      .ok { workersSpawned := cfg.maxWorkers,
            frontier := chanPush cfg.maxWorkers [] seed,
            dispatched := [(seed, 0)],
            published := pub.1.toList,
            finalVisited := pub.2 }

/-! ### The summarizer (src/internal/summarizer/factory.go) -/

/-- The fixed length ceiling, `const maxLen = 12000` (factory.go line 126). -/
def summMaxLen : Nat := 12000

/-- The head-and-tail truncation (factory.go lines 126-131): over the
ceiling, keep the first and last `maxLen/2` bytes joined by a newline
ellipsis marker; otherwise pass the text through unchanged. -/
def truncateForPrompt (text : Str) : Str :=
  if summMaxLen < text.length then
    text.take (summMaxLen / 2) ++ "\n...\n".toList ++ text.drop (text.length - summMaxLen / 2)
  else text

/-- The pure preprocessing of `Summarize` (factory.go lines 115-131): trim
whitespace, fail fast on empty input (`none`), then truncate.  The returned
string is exactly the text interpolated into the downstream prompt. -/
def summarizeInput (text : Str) : Option Str :=
  let t := trimSpaceStr text
  if t.isEmpty then none else some (truncateForPrompt t)

/-- Observable trace of the retry loop: the sleep durations in seconds (in
order), the number of attempts performed, and the final outcome (`none` is a
terminal error). -/
structure RetryTrace where
  sleeps : List Nat
  attemptsMade : Nat
  outcome : Option Str
deriving DecidableEq, Repr

/-- The retry loop of `Summarize` (factory.go lines 156-174), with attempt
outcomes supplied by the oracle `resp` (`none` = request failed).  After a
failed attempt `k < maxAttempts` the code sleeps `k` seconds and retries;
a failed final attempt is the terminal error; a successful attempt breaks
immediately. -/
def runAttempts (resp : Nat → Option Str) (maxAttempts : Nat) :
    Nat → Nat → RetryTrace
  | 0, _ => { sleeps := [], attemptsMade := 0, outcome := none }
  | fuel + 1, attempt =>
    match resp attempt with
    | some s => { sleeps := [], attemptsMade := 1, outcome := some s }
    | none =>
      if maxAttempts ≤ attempt then { sleeps := [], attemptsMade := 1, outcome := none }
      else
        let t := runAttempts resp maxAttempts fuel (attempt + 1)
        { sleeps := attempt :: t.sleeps, attemptsMade := t.attemptsMade + 1,
          outcome := t.outcome }

/-- The full retry phase of `Summarize` (factory.go lines 156-180):
`maxAttempts := 3`, attempts numbered from 1, and the post-loop check that a
summary that is still empty is a terminal error. -/
def summarizeRetry (resp : Nat → Option Str) : RetryTrace :=
  let t := runAttempts resp 3 3 1
  match t.outcome with
  | some s => if s.isEmpty then { t with outcome := none } else t
  | none => t

/-! ### Concrete fixtures used by the claim theorems -/

/-- The final response URL used in concrete runs: `http://example.com/a`. -/
def baseA : GoURL :=
  ⟨"http".toList, "example.com".toList, "/a".toList, [], false, []⟩

/-- A crawl configuration with room for two levels of depth and no host
filter. -/
def cfgA : Config := ⟨2, 2, []⟩

/-- A rendered page with non-empty text and one fresh absolute link. -/
def pageA : ParsedPage := ⟨"hello world".toList, ["http://example.com/b".toList]⟩

/-- A successful 200 `text/html` response ending at `baseA`. -/
def respA : FetchResp := ⟨200, "text/html".toList, baseA⟩

/-- A fully successful environment: fetch, render and summarization all
succeed, and cancellation never fires. -/
def envA : PageEnv := ⟨false, false, .ok respA, .ok pageA, .ok ("summary".toList)⟩

/-- The seed used in concrete runs. -/
def seedA : Str := "http://example.com/a".toList

/-- An environment identical to `envA` except that summarization fails. -/
def envB : PageEnv := ⟨false, false, .ok respA, .ok pageA, .error ()⟩

/-- A configuration with the allowed-host filter set to `example.com`. -/
def cfgH : Config := ⟨2, 1, "example.com".toList⟩

/-- A 200 response whose post-redirect URL lives on `other.com`. -/
def respH : FetchResp :=
  ⟨200, "text/html".toList, ⟨"http".toList, "other.com".toList, "/x".toList, [], false, []⟩⟩

/-- An environment whose fetch ends on the disallowed host `other.com`. -/
def envH : PageEnv := ⟨false, false, .ok respH, .ok pageA, .ok ("summary".toList)⟩

/-! ### Helper lemmas: lists and trimming -/

theorem takeWhile_append_all (p : Char → Bool) (a b : Str) (h : a.all p) :
    (a ++ b).takeWhile p = a ++ b.takeWhile p := by
  induction a with
  | nil => simp
  | cons c t ih =>
      simp only [List.all_cons, Bool.and_eq_true] at h
      simp [List.takeWhile_cons, h.1, ih h.2]

theorem dropWhile_append_all (p : Char → Bool) (a b : Str) (h : a.all p) :
    (a ++ b).dropWhile p = b.dropWhile p := by
  induction a with
  | nil => simp
  | cons c t ih =>
      simp only [List.all_cons, Bool.and_eq_true] at h
      simp [List.dropWhile_cons, h.1, ih h.2]

theorem all_of_sublist {p : Char → Bool} {a b : Str} (hs : a.Sublist b)
    (h : b.all p) : a.all p := by
  rw [List.all_eq_true] at h ⊢
  exact fun c hc => h c (hs.mem hc)

theorem trimSlashes_append (a b : Str) :
    trimSlashes (a ++ b) =
      if trimSlashes b = [] then trimSlashes a else a ++ trimSlashes b := by
  unfold trimSlashes
  rw [List.reverse_append, List.dropWhile_append]
  by_cases h : (b.reverse.dropWhile (· = '/')) = []
  · simp [h]
  · simp [h, List.isEmpty_iff, List.reverse_eq_nil_iff]

theorem trimSlashes_eq_nil_iff (s : Str) :
    trimSlashes s = [] ↔ ∀ c ∈ s, c = '/' := by
  unfold trimSlashes
  rw [List.reverse_eq_nil_iff, List.dropWhile_eq_nil_iff]
  constructor
  · intro h c hc
    have := h c (by simpa using hc)
    simpa using this
  · intro h c hc
    simp [h c (by simpa using hc)]

theorem trimSlashes_idem (s : Str) :
    trimSlashes (trimSlashes s) = trimSlashes s := by
  unfold trimSlashes
  rw [List.reverse_reverse]
  cases h : s.reverse.dropWhile (· = '/') with
  | nil => simp
  | cons c t =>
      have hc : ¬ (c = '/') := by
        have := List.head?_dropWhile_not (· = '/') s.reverse
        rw [h] at this
        simpa using this
      simp [List.dropWhile_cons, hc]

theorem trimSlashes_getLast_ne (s : Str) : (trimSlashes s).getLast? ≠ some '/' := by
  unfold trimSlashes
  rw [List.getLast?_reverse]
  have := List.head?_dropWhile_not (· = '/') s.reverse
  intro h
  rw [h] at this
  simp at this

theorem trimSlashes_of_getLast_ne (s : Str) (h : s.getLast? ≠ some '/') :
    trimSlashes s = s := by
  unfold trimSlashes
  cases hs : s.reverse with
  | nil =>
      have h0 : s = [] := by simpa using congrArg List.reverse hs
      simp [h0]
  | cons c t =>
      have hlast : s.getLast? = some c := by
        rw [← List.head?_reverse, hs]
        rfl
      have hd : (decide (c = '/')) = false := by
        simp only [decide_eq_false_iff_not]
        intro hcc
        exact h (by rw [hlast, hcc])
      rw [List.dropWhile_cons, hd]
      simp only [Bool.false_eq_true, if_false]
      rw [← hs, List.reverse_reverse]

theorem trimSlashes_concat_slash (s : Str) :
    trimSlashes (s ++ ['/']) = trimSlashes s := by
  rw [trimSlashes_append]
  simp [trimSlashes]

theorem trimSlashes_prefixOf (s : Str) : trimSlashes s <+: s := by
  rw [← List.reverse_suffix, trimSlashes, List.reverse_reverse]
  exact List.dropWhile_suffix _

/-! ### Helper lemmas: characters -/

theorem char_toNat_le_of_val_ge {c : Char} {m : UInt32} (h : m ≤ c.val) :
    m.toNat ≤ c.toNat := by
  have h2 := UInt32.le_def.mp h
  simp only [BitVec.le_def] at h2
  have e1 : m.toNat = m.toBitVec.toNat := rfl
  have e2 : c.toNat = c.val.toBitVec.toNat := rfl
  omega

theorem char_toNat_ge_of_val_le {c : Char} {m : UInt32} (h : c.val ≤ m) :
    c.toNat ≤ m.toNat := by
  have h2 := UInt32.le_def.mp h
  simp only [BitVec.le_def] at h2
  have e1 : m.toNat = m.toBitVec.toNat := rfl
  have e2 : c.toNat = c.val.toBitVec.toNat := rfl
  omega

theorem char_toNat_ne {c d : Char} (h : c.toNat ≠ d.toNat) : ¬ (c = d) :=
  fun e => h (by rw [e])

theorem schemeTailChar_spec (c : Char) (h : schemeTailChar c = true) :
    cleanChar c = true ∧ ¬ (c = ':') ∧ ¬ (c = '/') := by
  have k43 : ('+' : Char).toNat = 43 := rfl
  have k45 : ('-' : Char).toNat = 45 := rfl
  have k46 : ('.' : Char).toNat = 46 := rfl
  have hnum : 32 ≤ c.toNat ∧ c.toNat ≤ 122 ∧ c.toNat ≠ 35 ∧ c.toNat ≠ 47 ∧
      c.toNat ≠ 58 ∧ c.toNat ≠ 63 ∧ c.toNat ≠ 127 := by
    simp only [schemeTailChar, Char.isAlpha, Char.isUpper, Char.isLower, Char.isDigit,
      Bool.or_eq_true, Bool.and_eq_true, decide_eq_true_eq] at h
    rcases h with (((h | h) | h) | h) | h
    · rcases h with ⟨h1, h2⟩ | ⟨h1, h2⟩
      · have a : 65 ≤ c.toNat := char_toNat_le_of_val_ge h1
        have b : c.toNat ≤ 90 := char_toNat_ge_of_val_le h2
        omega
      · have a : 97 ≤ c.toNat := char_toNat_le_of_val_ge h1
        have b : c.toNat ≤ 122 := char_toNat_ge_of_val_le h2
        omega
    · obtain ⟨h1, h2⟩ := h
      have a : 48 ≤ c.toNat := char_toNat_le_of_val_ge h1
      have b : c.toNat ≤ 57 := char_toNat_ge_of_val_le h2
      omega
    · subst h; omega
    · subst h; omega
    · subst h; omega
  have k35 : ('#' : Char).toNat = 35 := rfl
  have k47 : ('/' : Char).toNat = 47 := rfl
  have k58 : (':' : Char).toNat = 58 := rfl
  have k63 : ('?' : Char).toNat = 63 := rfl
  refine ⟨?_, char_toNat_ne (by omega), char_toNat_ne (by omega)⟩
  simp only [cleanChar, okChar, Bool.and_eq_true, Bool.not_eq_true', beq_eq_false_iff_ne,
    ne_eq, decide_eq_true_eq]
  exact ⟨⟨char_toNat_ne (by omega), char_toNat_ne (by omega)⟩, by omega, by omega⟩

/-! ### Helper lemmas: the URL component splitters -/

theorem takeWhile_all_eq (p : Char → Bool) (s : Str) (h : s.all p) :
    s.takeWhile p = s := by
  have h2 := takeWhile_append_all p s [] h
  simpa using h2

theorem dropWhile_all_eq (p : Char → Bool) (s : Str) (h : s.all p) :
    s.dropWhile p = [] := by
  have h2 := dropWhile_append_all p s [] h
  simpa using h2

theorem contains_eq_false (x : Char) (s : Str) (h : s.all (· ≠ x)) :
    s.contains x = false := by
  rw [List.contains_eq_any_beq, List.any_eq_false]
  intro c hc
  have hcx : c ≠ x := by simpa using (List.all_eq_true.mp h) c hc
  simp only [beq_iff_eq]
  exact fun e => hcx e.symm

theorem contains_eq_true (x : Char) (s : Str) (hx : x ∈ s) :
    s.contains x = true := by
  rw [List.contains_eq_any_beq, List.any_eq_true]
  exact ⟨x, hx, by simp⟩

theorem cutAt_of_not_mem (c : Char) (s : Str) (h : s.all (· ≠ c)) :
    cutAt c s = (s, []) := by
  unfold cutAt
  rw [takeWhile_all_eq _ _ h, dropWhile_all_eq _ _ h]
  rfl

theorem cutAt_append_sep (c : Char) (a b : Str) (ha : a.all (· ≠ c)) :
    cutAt c (a ++ c :: b) = (a, b) := by
  unfold cutAt
  rw [takeWhile_append_all _ _ _ ha, dropWhile_append_all _ _ _ ha]
  simp [List.takeWhile_cons, List.dropWhile_cons]

theorem splitQuery_no (s : Str) (h : s.all (· ≠ '?')) :
    splitQuery s = (s, [], false) := by
  unfold splitQuery
  have hcond : (s.getLast? == some '?' && ! s.dropLast.contains '?') = false := by
    cases hl : s.getLast? with
    | none => simp
    | some x =>
        have hx : x ≠ '?' := by
          simpa using (List.all_eq_true.mp h) x (List.mem_of_mem_getLast? hl)
        simp [hx]
  rw [hcond]
  simp only [Bool.false_eq_true, if_false]
  rw [cutAt_of_not_mem _ _ h]

theorem splitQuery_force (a : Str) (ha : a.all (· ≠ '?')) :
    splitQuery (a ++ ['?']) = (a, [], true) := by
  unfold splitQuery
  rw [List.getLast?_concat, List.dropLast_concat, contains_eq_false _ _ ha]
  simp

theorem splitQuery_query (a q : Str) (ha : a.all (· ≠ '?')) (hq : q ≠ []) :
    splitQuery (a ++ '?' :: q) = (a, q, false) := by
  unfold splitQuery
  have hdl : (a ++ '?' :: q).dropLast = a ++ ('?' :: q.dropLast) := by
    rw [List.dropLast_append_of_ne_nil _ (by simp), List.dropLast_cons_of_ne_nil hq]
  have hcont : (a ++ '?' :: q).dropLast.contains '?' = true := by
    rw [hdl]
    exact contains_eq_true _ _ (by simp)
  rw [hcont]
  simp only [Bool.not_true, Bool.and_false, Bool.false_eq_true, if_false]
  rw [cutAt_append_sep _ _ _ ha]

theorem splitAuthority_split (host path : Str) (hh : host.all (· ≠ '/'))
    (hp : path = [] ∨ path.head? = some '/') :
    splitAuthority (host ++ path) = (host, path) := by
  unfold splitAuthority
  rcases hp with rfl | hp
  · rw [List.append_nil, takeWhile_all_eq _ _ hh, dropWhile_all_eq _ _ hh]
  · cases path with
    | nil => simp at hp
    | cons c t =>
        have hc : c = '/' := by simpa using hp
        subst hc
        rw [takeWhile_append_all _ _ _ hh, dropWhile_append_all _ _ _ hh]
        simp [List.takeWhile_cons, List.dropWhile_cons]

theorem takeWhile_slash_concat (d : Str) :
    (d ++ ['/']).takeWhile (· ≠ '/') = d.takeWhile (· ≠ '/') := by
  induction d with
  | nil => simp
  | cons c t ih =>
      rw [List.cons_append, List.takeWhile_cons, List.takeWhile_cons]
      by_cases hc : c = '/'
      · subst hc; simp
      · have hd : (decide (c ≠ '/')) = true := by simp [hc]
        rw [hd]
        simp only [if_true]
        rw [ih]

theorem dropWhile_slash_concat (d : Str) :
    (d ++ ['/']).dropWhile (· ≠ '/') = d.dropWhile (· ≠ '/') ++ ['/'] := by
  induction d with
  | nil => simp
  | cons c t ih =>
      rw [List.cons_append, List.dropWhile_cons, List.dropWhile_cons]
      by_cases hc : c = '/'
      · subst hc; simp
      · have hd : (decide (c ≠ '/')) = true := by simp [hc]
        rw [hd]
        simp only [if_true]
        rw [ih]

theorem splitAuthority_concat (d : Str) :
    splitAuthority (d ++ ['/']) = ((splitAuthority d).1, (splitAuthority d).2 ++ ['/']) := by
  unfold splitAuthority
  rw [takeWhile_slash_concat, dropWhile_slash_concat]

/-! ### Helper lemmas: scheme scanning -/

theorem schemeOK_concat (a : Str) (c : Char) (h : schemeOK a = true)
    (hc : schemeTailChar c = true) : schemeOK (a ++ [c]) = true := by
  cases a with
  | nil => simp [schemeOK] at h
  | cons d ds =>
      rw [List.cons_append]
      simp only [schemeOK, Bool.and_eq_true, List.all_append, List.all_cons, List.all_nil] at h ⊢
      refine ⟨h.1, h.2, ?_⟩
      simp [hc]

theorem schemeOK_all_tail (s : Str) (h : schemeOK s = true) :
    s.all schemeTailChar = true := by
  cases s with
  | nil => simp [schemeOK] at h
  | cons c t =>
      simp only [schemeOK, Bool.and_eq_true] at h
      simp only [List.all_cons, Bool.and_eq_true]
      exact ⟨by simp [schemeTailChar, h.1], h.2⟩

theorem getSchemeAux_append_sep (sch : Str) : ∀ acc r : Str, acc ≠ [] →
    sch.all schemeTailChar = true →
    getSchemeAux acc (sch ++ ':' :: r) = .found (acc.reverse ++ sch) r := by
  induction sch with
  | nil =>
      intro acc r hacc _
      show getSchemeAux acc (':' :: r) = _
      simp [getSchemeAux, List.isEmpty_iff, hacc]
  | cons c cs ih =>
      intro acc r hacc hall
      simp only [List.all_cons, Bool.and_eq_true] at hall
      have hspec := schemeTailChar_spec c hall.1
      show getSchemeAux acc (c :: (cs ++ ':' :: r)) = _
      simp only [getSchemeAux]
      rw [if_neg hspec.2.1]
      by_cases halpha : c.isAlpha
      · rw [if_pos halpha, ih (c :: acc) r (by simp) hall.2]
        simp
      · have hrest : (c.isDigit || c = '+' || c = '-' || c = '.') = true := by
          have h0 := hall.1
          simp only [schemeTailChar, Bool.or_eq_true, decide_eq_true_eq] at h0 ⊢
          rcases h0 with (((h | h) | h) | h) | h
          · exact absurd h halpha
          · exact Or.inl (Or.inl (Or.inl h))
          · exact Or.inl (Or.inl (Or.inr h))
          · exact Or.inl (Or.inr h)
          · exact Or.inr h
        rw [if_neg halpha, if_pos hrest, if_neg (by simp [List.isEmpty_iff, hacc]),
          ih (c :: acc) r (by simp) hall.2]
        simp

theorem getScheme_scheme (sch r : Str) (hs : schemeOK sch = true) :
    getScheme (sch ++ ':' :: r) = .found sch r := by
  cases sch with
  | nil => simp [schemeOK] at hs
  | cons c cs =>
      simp only [schemeOK, Bool.and_eq_true] at hs
      unfold getScheme
      show getSchemeAux [] (c :: (cs ++ ':' :: r)) = _
      simp only [getSchemeAux]
      have hspec := schemeTailChar_spec c (by simp [schemeTailChar, hs.1])
      rw [if_neg hspec.2.1, if_pos hs.1, getSchemeAux_append_sep cs [c] r (by simp) hs.2]
      simp

theorem getSchemeAux_rest_suffix (s : Str) : ∀ acc sch r,
    getSchemeAux acc s = .found sch r → r <:+ s := by
  induction s with
  | nil => intro acc sch r h; simp [getSchemeAux] at h
  | cons c t ih =>
      intro acc sch r h
      simp only [getSchemeAux] at h
      by_cases h1 : c = ':'
      · rw [if_pos h1] at h
        by_cases h2 : acc.isEmpty
        · rw [if_pos h2] at h; exact absurd h (by simp)
        · rw [if_neg h2] at h
          cases h
          subst h1
          exact ⟨[':'], rfl⟩
      · rw [if_neg h1] at h
        by_cases h2 : c.isAlpha
        · rw [if_pos h2] at h
          exact (ih _ _ _ h).trans ⟨[c], rfl⟩
        · rw [if_neg h2] at h
          by_cases h3 : (c.isDigit || c = '+' || c = '-' || c = '.') = true
          · rw [if_pos h3] at h
            by_cases h4 : acc.isEmpty
            · rw [if_pos h4] at h; exact absurd h (by simp)
            · rw [if_neg h4] at h
              exact (ih _ _ _ h).trans ⟨[c], rfl⟩
          · rw [if_neg h3] at h; exact absurd h (by simp)

theorem getSchemeAux_found_schemeOK (s : Str) : ∀ acc sch r,
    (acc = [] ∨ schemeOK acc.reverse = true) →
    getSchemeAux acc s = .found sch r → schemeOK sch = true := by
  induction s with
  | nil => intro acc sch r _ h; simp [getSchemeAux] at h
  | cons c t ih =>
      intro acc sch r hacc h
      simp only [getSchemeAux] at h
      by_cases h1 : c = ':'
      · rw [if_pos h1] at h
        by_cases h2 : acc.isEmpty
        · rw [if_pos h2] at h; exact absurd h (by simp)
        · rw [if_neg h2] at h
          cases h
          rcases hacc with rfl | hacc
          · simp at h2
          · exact hacc
      · rw [if_neg h1] at h
        by_cases h2 : c.isAlpha
        · rw [if_pos h2] at h
          apply ih (c :: acc) sch r _ h
          right
          rcases hacc with rfl | hacc
          · simpa [schemeOK] using h2
          · rw [List.reverse_cons]
            exact schemeOK_concat _ _ hacc (by simp [schemeTailChar, h2])
        · rw [if_neg h2] at h
          by_cases h3 : (c.isDigit || c = '+' || c = '-' || c = '.') = true
          · rw [if_pos h3] at h
            by_cases h4 : acc.isEmpty
            · rw [if_pos h4] at h; exact absurd h (by simp)
            · rw [if_neg h4] at h
              apply ih (c :: acc) sch r _ h
              right
              rcases hacc with rfl | hacc
              · simp at h4
              · rw [List.reverse_cons]
                refine schemeOK_concat _ _ hacc ?_
                simp only [schemeTailChar, Bool.or_eq_true] at h3 ⊢
                tauto
          · rw [if_neg h3] at h; exact absurd h (by simp)

theorem getSchemeAux_concat_slash (s : Str) : ∀ acc,
    getSchemeAux acc (s ++ ['/']) =
      (match getSchemeAux acc s with
       | .err => .err
       | .noScheme => .noScheme
       | .found sch r => .found sch (r ++ ['/'])) := by
  induction s with
  | nil =>
      intro acc
      show getSchemeAux acc ['/'] = _
      simp [getSchemeAux]
  | cons c t ih =>
      intro acc
      show getSchemeAux acc (c :: (t ++ ['/'])) = _
      simp only [getSchemeAux]
      by_cases h1 : c = ':'
      · rw [if_pos h1, if_pos h1]
        by_cases h2 : acc.isEmpty
        · simp [h2]
        · simp [h2]
      · rw [if_neg h1, if_neg h1]
        by_cases h2 : c.isAlpha
        · rw [if_pos h2, if_pos h2, ih]
        · rw [if_neg h2, if_neg h2]
          by_cases h3 : (c.isDigit || c = '+' || c = '-' || c = '.') = true
          · rw [if_pos h3, if_pos h3]
            by_cases h4 : acc.isEmpty
            · simp [h4]
            · simp only [h4, Bool.false_eq_true, if_false, ih]
          · rw [if_neg h3, if_neg h3]

/-! ### The print-parse roundtrip -/

theorem all_imp {p q : Char → Bool} (s : Str) (h : s.all p = true)
    (himp : ∀ c, p c = true → q c = true) : s.all q = true := by
  rw [List.all_eq_true] at h ⊢
  exact fun c hc => himp c (h c hc)

theorem cleanChar_spec {c : Char} (h : cleanChar c = true) :
    (decide (c ≠ '#')) = true ∧ (decide (c ≠ '?')) = true ∧ okChar c = true := by
  simp only [cleanChar, Bool.and_eq_true, Bool.not_eq_true', beq_eq_false_iff_ne, ne_eq] at h
  exact ⟨by simpa using h.1.1, by simpa using h.1.2, h.2⟩

theorem cutFrag (B f : Str) (hB : B.all (· ≠ '#') = true) :
    cutAt '#' (B ++ (if f.isEmpty then [] else '#' :: f)) = (B, f) := by
  cases f with
  | nil => simpa using cutAt_of_not_mem '#' B hB
  | cons c t =>
      simp only [List.isEmpty_cons, Bool.false_eq_true, if_false]
      exact cutAt_append_sep '#' B (c :: t) hB

theorem splitQuery_combined (A q : Str) (fq : Bool) (hA : A.all (· ≠ '?') = true)
    (hfq : fq = true → q = []) :
    splitQuery (A ++ (if fq || !q.isEmpty then '?' :: q else [])) = (A, q, fq) := by
  cases fq with
  | true =>
      have hq := hfq rfl
      subst hq
      simpa using splitQuery_force A hA
  | false =>
      cases q with
      | nil => simpa using splitQuery_no A hA
      | cons c t =>
          simpa using splitQuery_query A (c :: t) hA (by simp)

theorem parse_urlString_core (sch host path q : Str) (fq : Bool) (f : Str)
    (hsch : schemeOK sch = true)
    (hhost : host.all (fun c => cleanChar c && !(c == '/')) = true)
    (hpath : path.all cleanChar = true)
    (hshape : if host.isEmpty then (¬ path.take 2 = ['/', '/'] ∨ path.take 3 = ['/', '/', '/'])
              else (path = [] ∨ path.head? = some '/'))
    (hq : q.all (fun c => !(c == '#') && okChar c) = true)
    (hfq : fq = true → q = [])
    (hf : f.all okChar = true) :
    parseURL (urlString ⟨sch, host, path, q, fq, f⟩) = some ⟨sch, host, path, q, fq, f⟩ := by
  have hs0 : sch.isEmpty = false := by
    cases hx : sch with
    | nil => rw [hx] at hsch; simp [schemeOK] at hsch
    | cons a b => rfl
  -- component character facts
  have schTail := schemeOK_all_tail _ hsch
  have schClean : sch.all cleanChar = true :=
    all_imp _ schTail (fun c hc => (schemeTailChar_spec c hc).1)
  have schHash : sch.all (· ≠ '#') = true :=
    all_imp _ schClean (fun c hc => (cleanChar_spec hc).1)
  have schQn : sch.all (· ≠ '?') = true :=
    all_imp _ schClean (fun c hc => (cleanChar_spec hc).2.1)
  have schOk : sch.all okChar = true :=
    all_imp _ schClean (fun c hc => (cleanChar_spec hc).2.2)
  have hostClean : host.all cleanChar = true :=
    all_imp _ hhost (fun c hc => (Bool.and_eq_true_iff.mp hc).1)
  have hostHash : host.all (· ≠ '#') = true :=
    all_imp _ hostClean (fun c hc => (cleanChar_spec hc).1)
  have hostQn : host.all (· ≠ '?') = true :=
    all_imp _ hostClean (fun c hc => (cleanChar_spec hc).2.1)
  have hostOk : host.all okChar = true :=
    all_imp _ hostClean (fun c hc => (cleanChar_spec hc).2.2)
  have hostSlash : host.all (· ≠ '/') = true :=
    all_imp _ hhost (fun c hc => by
      have h2 := (Bool.and_eq_true_iff.mp hc).2
      simpa using h2)
  have pathHash : path.all (· ≠ '#') = true :=
    all_imp _ hpath (fun c hc => (cleanChar_spec hc).1)
  have pathQn : path.all (· ≠ '?') = true :=
    all_imp _ hpath (fun c hc => (cleanChar_spec hc).2.1)
  have pathOk : path.all okChar = true :=
    all_imp _ hpath (fun c hc => (cleanChar_spec hc).2.2)
  have qHash : q.all (· ≠ '#') = true :=
    all_imp _ hq (fun c hc => by
      have h2 := (Bool.and_eq_true_iff.mp hc).1
      simpa using h2)
  have qOk : q.all okChar = true :=
    all_imp _ hq (fun c hc => (Bool.and_eq_true_iff.mp hc).2)
  have kColon : okChar ':' = true := by decide
  have kSlash : okChar '/' = true := by decide
  have kQm : okChar '?' = true := by decide
  have kHash : okChar '#' = true := by decide
  -- name the three optional segments
  have hS : urlString ⟨sch, host, path, q, fq, f⟩ =
      (sch ++ ':' :: ((if host.isEmpty then [] else '/' :: '/' :: host) ++
        (path ++ (if fq || !q.isEmpty then '?' :: q else [])))) ++
      (if f.isEmpty then [] else '#' :: f) := by
    simp [urlString, hs0, List.append_assoc]
  -- the control-character gate passes
  have hctl : ctlFree (urlString ⟨sch, host, path, q, fq, f⟩) = true := by
    rw [hS]
    unfold ctlFree
    by_cases hb1 : host.isEmpty <;> by_cases hb2 : (fq || !q.isEmpty) = true <;>
      by_cases hb3 : f.isEmpty <;>
      simp [hb1, hb2, hb3, List.all_append, List.all_cons, schOk, hostOk, pathOk, qOk, hf,
        kColon, kSlash, kQm, kHash]
  -- the body before the fragment has no '#'
  have hBhash : (sch ++ ':' :: ((if host.isEmpty then [] else '/' :: '/' :: host) ++
      (path ++ (if fq || !q.isEmpty then '?' :: q else [])))).all (· ≠ '#') = true := by
    have e1 : ∀ x ∈ sch, ¬ x = '#' := by simpa using schHash
    have e2 : ∀ x ∈ host, ¬ x = '#' := by simpa using hostHash
    have e3 : ∀ x ∈ path, ¬ x = '#' := by simpa using pathHash
    have e4 : ∀ x ∈ q, ¬ x = '#' := by simpa using qHash
    by_cases hb1 : host.isEmpty <;> by_cases hb2 : (fq || !q.isEmpty) = true <;>
      simp [hb1, hb2, List.all_append, List.all_cons] <;> tauto
  have hcut : cutAt '#' (urlString ⟨sch, host, path, q, fq, f⟩) =
      (sch ++ ':' :: ((if host.isEmpty then [] else '/' :: '/' :: host) ++
        (path ++ (if fq || !q.isEmpty then '?' :: q else []))), f) := by
    rw [hS]
    exact cutFrag _ _ hBhash
  -- the host-plus-path block has no '?'
  have hAq : ((if host.isEmpty then [] else '/' :: '/' :: host) ++ path).all (· ≠ '?') = true := by
    have e2 : ∀ x ∈ host, ¬ x = '?' := by simpa using hostQn
    have e3 : ∀ x ∈ path, ¬ x = '?' := by simpa using pathQn
    by_cases hb1 : host.isEmpty <;>
      simp [hb1, List.all_append, List.all_cons] <;> tauto
  have hsq : splitQuery ((if host.isEmpty then [] else '/' :: '/' :: host) ++
      (path ++ (if fq || !q.isEmpty then '?' :: q else []))) =
      ((if host.isEmpty then [] else '/' :: '/' :: host) ++ path, q, fq) := by
    rw [← List.append_assoc]
    exact splitQuery_combined _ _ _ hAq hfq
  -- assemble
  unfold parseURL
  rw [if_neg (by rw [hctl]; simp)]
  rw [hcut]
  dsimp only
  rw [getScheme_scheme _ _ hsch]
  dsimp only
  unfold parseAfterScheme
  rw [hsq]
  dsimp only
  by_cases hb1 : host.isEmpty
  · have hhost0 : host = [] := List.isEmpty_iff.mp hb1
    rw [if_neg ?hcond]
    case hcond =>
      rw [hb1] at hshape
      simp only [if_true] at hshape
      simp only [hhost0, List.nil_append, not_and, not_not]
      intro h2
      rcases hshape with h | h
      · exact absurd h2 h
      · exact h
    rw [hhost0]
    simp
  · rw [if_neg ?hne] at hshape
    case hne => simp [hb1]
    obtain ⟨hh, ht, hhost0⟩ : ∃ hh ht, host = hh :: ht := by
      cases hx : host with
      | nil => rw [hx] at hb1; simp at hb1
      | cons a b => exact ⟨a, b, rfl⟩
    have hhne : ¬ (hh = '/') := by
      have := List.all_eq_true.mp hostSlash hh (by rw [hhost0]; simp)
      simpa using this
    have hform : ((if host.isEmpty then [] else '/' :: '/' :: host) ++ path) =
        '/' :: '/' :: (host ++ path) := by
      simp [hb1]
    rw [hform]
    rw [if_pos ?hca]
    case hca =>
      constructor
      · simp
      · rw [hhost0]
        simp only [List.cons_append, List.take_succ_cons, List.take_zero]
        intro hcontra
        apply hhne
        have := List.cons.injEq .. |>.mp hcontra
        simpa using hcontra
    have hsa : splitAuthority (('/' :: '/' :: (host ++ path)).drop 2) = (host, path) := by
      simp only [List.drop_succ_cons, List.drop_zero]
      exact splitAuthority_split host path hostSlash
        (by rcases hshape with h | h
            · exact Or.inl h
            · exact Or.inr h)
    rw [hsa]

theorem parse_urlString (u : GoURL) (h : wfURL u = true) :
    parseURL (urlString u) = some u := by
  obtain ⟨sch, host, path, q, fq, f⟩ := u
  simp only [wfURL, pwfURL, Bool.and_eq_true] at h
  obtain ⟨⟨⟨⟨⟨⟨⟨hso, hhost⟩, hpath⟩, hshape⟩, hquery⟩, hfq⟩, hfrag⟩, hsch⟩ := h
  refine parse_urlString_core sch host path q fq f hsch hhost hpath ?_ hquery ?_ hfrag
  · by_cases hb : host.isEmpty
    · rw [if_pos hb] at hshape ⊢
      simpa using hshape
    · rw [if_neg hb] at hshape ⊢
      simpa [List.isEmpty_iff] using hshape
  · intro hfq1
    rw [hfq1] at hfq
    simpa [List.isEmpty_iff] using hfq

/-! ### The parser's output invariants -/

theorem splitQuery_fst_sublist (s : Str) : (splitQuery s).1.Sublist s := by
  unfold splitQuery
  by_cases hc : (s.getLast? == some '?' && ! s.dropLast.contains '?') = true
  · rw [if_pos hc]
    exact List.dropLast_sublist s
  · rw [if_neg hc]
    exact (List.takeWhile_sublist _)

theorem splitQuery_snd_sublist (s : Str) : (splitQuery s).2.1.Sublist s := by
  unfold splitQuery
  by_cases hc : (s.getLast? == some '?' && ! s.dropLast.contains '?') = true
  · rw [if_pos hc]
    simp
  · rw [if_neg hc]
    exact ((List.drop_sublist _ _).trans (List.dropWhile_sublist _))

theorem splitQuery_fst_no_qm (s : Str) : (splitQuery s).1.all (· ≠ '?') = true := by
  unfold splitQuery
  by_cases hc : (s.getLast? == some '?' && ! s.dropLast.contains '?') = true
  · rw [if_pos hc]
    obtain ⟨_, h2⟩ := Bool.and_eq_true_iff.mp hc
    rw [List.all_eq_true]
    intro c hcm
    by_contra hne
    have hcq : c = '?' := by simpa using hne
    subst hcq
    rw [contains_eq_true _ _ hcm] at h2
    simp at h2
  · rw [if_neg hc]
    rw [List.all_eq_true]
    intro c hcm
    have := List.mem_takeWhile_imp hcm
    simpa using this

theorem splitQuery_force_imp (s : Str) (h : (splitQuery s).2.2 = true) :
    (splitQuery s).2.1 = [] := by
  unfold splitQuery at h ⊢
  by_cases hc : (s.getLast? == some '?' && ! s.dropLast.contains '?') = true
  · rw [if_pos hc]
  · rw [if_neg hc] at h
    simp at h

theorem bnot_beq_true {c d : Char} (h : ¬ (c = d)) : (!(c == d)) = true := by
  rw [Bool.not_eq_true', beq_eq_false_iff_ne]
  exact h

theorem parseAfterScheme_pwf (sch rest frag : Str)
    (hsch : sch.isEmpty = true ∨ schemeOK sch = true)
    (hrest : rest.all (fun c => !(c == '#') && okChar c) = true)
    (hfrag : frag.all okChar = true) :
    pwfURL (parseAfterScheme sch rest frag) = true := by
  have hso : (sch.isEmpty || schemeOK sch) = true := by
    rcases hsch with h | h <;> simp [h]
  have hr1 : (splitQuery rest).1.all (fun c => !(c == '#') && okChar c) = true :=
    all_of_sublist (splitQuery_fst_sublist rest) hrest
  have hr1q : (splitQuery rest).1.all (· ≠ '?') = true := splitQuery_fst_no_qm rest
  have hr2 : (splitQuery rest).2.1.all (fun c => !(c == '#') && okChar c) = true :=
    all_of_sublist (splitQuery_snd_sublist rest) hrest
  have mclean : ∀ c ∈ (splitQuery rest).1, cleanChar c = true := by
    intro c hc
    have h1 := List.all_eq_true.mp hr1 c hc
    have h2 := List.all_eq_true.mp hr1q c hc
    rw [Bool.and_eq_true] at h1
    simp only [cleanChar, Bool.and_eq_true]
    exact ⟨⟨h1.1, bnot_beq_true (by simpa using h2)⟩, h1.2⟩
  have hq2 : (splitQuery rest).2.1.all (fun c => !(c == '#') && okChar c) = true := hr2
  unfold parseAfterScheme
  by_cases hcond : ((splitQuery rest).1.take 2 = ['/', '/'] ∧
      ¬ (splitQuery rest).1.take 3 = ['/', '/', '/'])
  · rw [if_pos hcond]
    unfold splitAuthority
    simp only [pwfURL, Bool.and_eq_true]
    have mD : ∀ c ∈ (splitQuery rest).1.drop 2, cleanChar c = true :=
      fun c hc => mclean c ((List.drop_sublist 2 _).mem hc)
    refine ⟨⟨⟨⟨⟨⟨hso, ?_⟩, ?_⟩, ?_⟩, ?_⟩, ?_⟩, ?_⟩
    · rw [List.all_eq_true]
      intro c hc
      have hmem := (List.takeWhile_sublist (l := (splitQuery rest).1.drop 2) (· ≠ '/')).mem hc
      have h2 := List.mem_takeWhile_imp hc
      rw [Bool.and_eq_true]
      exact ⟨mD c hmem, bnot_beq_true (by simpa using h2)⟩
    · rw [List.all_eq_true]
      intro c hc
      exact mD c ((List.dropWhile_sublist (l := (splitQuery rest).1.drop 2) (· ≠ '/')).mem hc)
    · by_cases hhe : (((splitQuery rest).1.drop 2).takeWhile (· ≠ '/')).isEmpty = true
      · rw [if_pos hhe]
        cases hD : (splitQuery rest).1.drop 2 with
        | nil => simp [hD]
        | cons c t =>
            exfalso
            rw [hD] at hhe
            have hc : c = '/' := by
              by_contra hcc
              rw [List.takeWhile_cons] at hhe
              have hd : (decide (c ≠ '/')) = true := by simpa using hcc
              rw [hd] at hhe
              simp at hhe
            apply hcond.2
            have hsplit2 : (splitQuery rest).1 = ['/', '/'] ++ (splitQuery rest).1.drop 2 := by
              conv_lhs => rw [← List.take_append_drop 2 (splitQuery rest).1]
              rw [hcond.1]
            rw [hsplit2, hD, hc]
            rfl
      · rw [if_neg hhe]
        rw [Bool.or_eq_true]
        cases hdw : ((splitQuery rest).1.drop 2).dropWhile (· ≠ '/') with
        | nil => left; simp
        | cons c t =>
            have hhw := List.head?_dropWhile_not (· ≠ '/') ((splitQuery rest).1.drop 2)
            rw [hdw] at hhw
            simp only [List.head?_cons] at hhw
            right
            have hc : c = '/' := by simpa using hhw
            simp [hc]
    · exact hr2
    · by_cases hforce : (splitQuery rest).2.2 = true
      · simp [splitQuery_force_imp rest hforce]
      · rw [Bool.not_eq_true] at hforce
        simp [hforce]
    · exact hfrag
  · rw [if_neg hcond]
    simp only [pwfURL, Bool.and_eq_true]
    refine ⟨⟨⟨⟨⟨⟨hso, by simp⟩, ?_⟩, ?_⟩, ?_⟩, ?_⟩, ?_⟩
    · rw [List.all_eq_true]
      intro c hc
      exact mclean c hc
    · simp only [List.isEmpty_nil, if_true]
      rw [Bool.or_eq_true]
      by_cases h2 : (splitQuery rest).1.take 2 = ['/', '/']
      · right
        have h3 := (not_and.mp hcond) h2
        rw [not_not] at h3
        simp [h3]
      · left
        simp only [Bool.not_eq_true', beq_eq_false_iff_ne, ne_eq]
        exact h2
    · exact hr2
    · by_cases hforce : (splitQuery rest).2.2 = true
      · simp [splitQuery_force_imp rest hforce]
      · rw [Bool.not_eq_true] at hforce
        simp [hforce]
    · exact hfrag

theorem parseURL_pwf (s : Str) (u : GoURL) (h : parseURL s = some u) :
    pwfURL u = true := by
  unfold parseURL at h
  by_cases hctl : ¬ ctlFree s = true
  · rw [if_pos hctl] at h
    exact absurd h (by simp)
  · rw [if_neg hctl] at h
    rw [not_not] at hctl
    have hbodyHash : ∀ c ∈ (cutAt '#' s).1, ¬ (c = '#') := by
      intro c hc
      unfold cutAt at hc
      simp only at hc
      have := List.mem_takeWhile_imp hc
      simpa using this
    have hbodySub : (cutAt '#' s).1.Sublist s := by
      unfold cutAt
      exact List.takeWhile_sublist _
    have hfragSub : (cutAt '#' s).2.Sublist s := by
      unfold cutAt
      exact (List.drop_sublist _ _).trans (List.dropWhile_sublist _)
    have hbody : (cutAt '#' s).1.all (fun c => !(c == '#') && okChar c) = true := by
      rw [List.all_eq_true]
      intro c hc
      rw [Bool.and_eq_true]
      refine ⟨bnot_beq_true (hbodyHash c hc), ?_⟩
      exact List.all_eq_true.mp (all_of_sublist hbodySub hctl) c hc
    have hfragOk : (cutAt '#' s).2.all okChar = true := all_of_sublist hfragSub hctl
    cases hg : getScheme (cutAt '#' s).1 with
    | err => rw [hg] at h; simp at h
    | noScheme =>
        rw [hg] at h
        simp only [Option.some.injEq] at h
        rw [← h]
        exact parseAfterScheme_pwf _ _ _ (Or.inl rfl) hbody hfragOk
    | found sch rest =>
        rw [hg] at h
        simp only [Option.some.injEq] at h
        rw [← h]
        unfold getScheme at hg
        have hsub := (getSchemeAux_rest_suffix _ [] _ _ hg).sublist
        have hrest : rest.all (fun c => !(c == '#') && okChar c) = true :=
          all_of_sublist hsub hbody
        have hOK := getSchemeAux_found_schemeOK _ [] _ _ (Or.inl rfl) hg
        exact parseAfterScheme_pwf _ _ _ (Or.inr hOK) hrest hfragOk

/-! ### Reference resolution preserves well-formedness -/

theorem dirOf_ne_nil (p : Str) : dirOf p ≠ [] := by
  unfold dirOf
  by_cases hd : ((p.reverse.dropWhile (· ≠ '/')).reverse).isEmpty = true
  · rw [if_pos hd]
    simp
  · rw [if_neg hd]
    simpa [List.isEmpty_iff] using hd

theorem dirOf_prefix_or_slash (p : Str) : dirOf p = ['/'] ∨ dirOf p <+: p := by
  unfold dirOf
  by_cases hd : ((p.reverse.dropWhile (· ≠ '/')).reverse).isEmpty = true
  · left
    rw [if_pos hd]
  · right
    rw [if_neg hd]
    rw [← List.reverse_suffix, List.reverse_reverse]
    exact List.dropWhile_suffix _

theorem dirOf_head (p : Str) (hp : p = [] ∨ p.head? = some '/') :
    (dirOf p).head? = some '/' := by
  rcases dirOf_prefix_or_slash p with h | h
  · rw [h]; rfl
  · rcases hp with rfl | hp
    · have h0 := dirOf_ne_nil []
      have : dirOf [] = [] := List.prefix_nil.mp h
      exact absurd this h0
    · obtain ⟨tl, htl⟩ := h
      have hne := dirOf_ne_nil p
      rw [← htl, List.head?_append_of_ne_nil _ hne] at hp
      exact hp

theorem mergePath_head (b r : Str) (hb : b = [] ∨ b.head? = some '/') :
    (mergePath b r).head? = some '/' := by
  unfold mergePath
  by_cases hr : r.head? = some '/'
  · rw [if_pos hr]; exact hr
  · rw [if_neg hr, List.head?_append_of_ne_nil _ (dirOf_ne_nil b)]
    exact dirOf_head b hb

theorem mergePath_clean (b r : Str) (hbc : b.all cleanChar = true)
    (hrc : r.all cleanChar = true) : (mergePath b r).all cleanChar = true := by
  unfold mergePath
  by_cases hr : r.head? = some '/'
  · rw [if_pos hr]; exact hrc
  · rw [if_neg hr, List.all_append, Bool.and_eq_true]
    refine ⟨?_, hrc⟩
    rcases dirOf_prefix_or_slash b with h | h
    · rw [h]; decide
    · exact all_of_sublist h.sublist hbc

theorem resolve_wf (base pl : GoURL) (hb : wfURL base = true)
    (hbh : base.host.isEmpty = false) (hp : pwfURL pl = true) :
    wfURL (absOrResolve base pl) = true := by
  unfold absOrResolve
  have hbparts := hb
  simp only [wfURL, pwfURL, Bool.and_eq_true] at hbparts
  obtain ⟨⟨⟨⟨⟨⟨⟨_, bhost⟩, bpath⟩, bshape⟩, bquery⟩, bfq⟩, bfrag⟩, bsch⟩ := hbparts
  have hbp : base.path = [] ∨ base.path.head? = some '/' := by
    rw [if_neg (by simp [hbh])] at bshape
    rcases Bool.or_eq_true_iff.mp bshape with h | h
    · left; simpa [List.isEmpty_iff] using h
    · right; simpa using h
  have hpparts := hp
  simp only [pwfURL, Bool.and_eq_true] at hpparts
  obtain ⟨⟨⟨⟨⟨⟨psch, phost⟩, ppath⟩, pshape⟩, pquery⟩, pfq⟩, pfrag⟩ := hpparts
  by_cases habs : isAbs pl = true
  · rw [if_pos habs]
    rw [wfURL, Bool.and_eq_true]
    refine ⟨hp, ?_⟩
    unfold isAbs at habs
    rcases Bool.or_eq_true_iff.mp psch with h | h
    · rw [h] at habs; simp at habs
    · exact h
  · rw [if_neg habs]
    unfold resolveReference
    rw [if_neg habs]
    by_cases hh : (! pl.host.isEmpty) = true
    · rw [if_pos hh]
      simp only [wfURL, pwfURL, Bool.and_eq_true]
      exact ⟨⟨⟨⟨⟨⟨⟨by simp [bsch], phost⟩, ppath⟩, pshape⟩, pquery⟩, pfq⟩, pfrag⟩, bsch⟩
    · rw [if_neg hh]
      by_cases hsd : (pl.path.isEmpty && ! pl.forceQuery && pl.rawQuery.isEmpty) = true
      · rw [if_pos hsd]
        simp only [wfURL, pwfURL, Bool.and_eq_true]
        refine ⟨⟨⟨⟨⟨⟨⟨by simp [bsch], bhost⟩, bpath⟩, bshape⟩, bquery⟩, bfq⟩, ?_⟩, bsch⟩
        by_cases hfe : pl.fragment.isEmpty = true
        · simp only [hfe, if_true]
          exact bfrag
        · simp only [hfe, Bool.false_eq_true, if_false]
          exact pfrag
      · rw [if_neg hsd]
        simp only [wfURL, pwfURL, Bool.and_eq_true]
        have hbhostne : base.host.isEmpty = false := hbh
        have hbpathclean : base.path.all cleanChar = true := bpath
        refine ⟨⟨⟨⟨⟨⟨⟨by simp [bsch], bhost⟩, ?_⟩, ?_⟩, pquery⟩, pfq⟩, pfrag⟩, bsch⟩
        · exact mergePath_clean _ _ hbpathclean ppath
        · rw [if_neg (by simp [hbhostne])]
          rw [Bool.or_eq_true]
          right
          simp [mergePath_head base.path pl.path hbp]

/-! ### Trailing-slash removal on the parsed representation -/

theorem getLast?_append_ne (a b : Str) (hb : b ≠ []) :
    (a ++ b).getLast? = b.getLast? := by
  rw [List.getLast?_append]
  cases hbl : b.getLast? with
  | none => exact absurd (List.getLast?_eq_none_iff.mp hbl) hb
  | some x => rfl

theorem trimSlashes_cons_hash (f : Str) (hf : trimSlashes f ≠ []) :
    trimSlashes ('#' :: f) = '#' :: trimSlashes f := by
  have h2 := trimSlashes_append ['#'] f
  simp only [List.singleton_append] at h2
  rw [h2, if_neg hf]

theorem trimSlashes_cons_hash_nil (f : Str) (hf : trimSlashes f = []) :
    trimSlashes ('#' :: f) = ['#'] := by
  have h2 := trimSlashes_append ['#'] f
  simp only [List.singleton_append] at h2
  rw [h2, if_pos hf]
  decide

theorem trimSlashes_cons_qm (q : Str) :
    trimSlashes ('?' :: q) =
      if trimSlashes q = [] then ['?'] else '?' :: trimSlashes q := by
  have h2 := trimSlashes_append ['?'] q
  simp only [List.singleton_append] at h2
  rw [h2]
  by_cases hq : trimSlashes q = []
  · rw [if_pos hq, if_pos hq]
    decide
  · rw [if_neg hq, if_neg hq]

/-- The prefix of `urlString u` before the query: scheme, authority, path. -/
def preQueryStr (u : GoURL) : Str :=
  ((if u.scheme.isEmpty then [] else u.scheme ++ [':']) ++
    (if u.host.isEmpty then [] else '/' :: '/' :: u.host)) ++ u.path

theorem urlString_eq_preQuery (u : GoURL) :
    urlString u = (preQueryStr u ++
      (if u.forceQuery || ! u.rawQuery.isEmpty then '?' :: u.rawQuery else [])) ++
      (if u.fragment.isEmpty then [] else '#' :: u.fragment) := rfl

theorem schemeHost_getLast (u : GoURL) (hw : wfURL u = true) :
    ((if u.scheme.isEmpty then [] else u.scheme ++ [':']) ++
      (if u.host.isEmpty then [] else '/' :: '/' :: u.host)).getLast? ≠ some '/' := by
  simp only [wfURL, pwfURL, Bool.and_eq_true] at hw
  obtain ⟨⟨⟨⟨⟨⟨⟨_, hhost⟩, _⟩, _⟩, _⟩, _⟩, _⟩, hsch⟩ := hw
  have hs0 : u.scheme ≠ [] := by
    cases hx : u.scheme with
    | nil => rw [hx] at hsch; simp [schemeOK] at hsch
    | cons a b => simp [hx]
  by_cases hh : u.host.isEmpty = true
  · rw [if_pos hh, List.append_nil, if_neg (by simpa [List.isEmpty_iff] using hs0)]
    rw [getLast?_append_ne _ _ (by simp)]
    simp
  · rw [if_neg hh]
    have hhne : u.host ≠ [] := by simpa [List.isEmpty_iff] using hh
    rw [getLast?_append_ne _ _ (by simp)]
    have h3 : ('/' :: '/' :: u.host).getLast? = u.host.getLast? := by
      have h4 := getLast?_append_ne ['/', '/'] u.host hhne
      simpa using h4
    rw [h3]
    intro hcontra
    have hmem := List.mem_of_mem_getLast? hcontra
    have h5 := List.all_eq_true.mp hhost '/' hmem
    simp at h5

theorem preQuery_trimU_path (u : GoURL) :
    preQueryStr { u with path := trimSlashes u.path } =
      ((if u.scheme.isEmpty then [] else u.scheme ++ [':']) ++
        (if u.host.isEmpty then [] else '/' :: '/' :: u.host)) ++ trimSlashes u.path := rfl

theorem urlString_plain (u : GoURL) (hfq : u.forceQuery = false)
    (hq : u.rawQuery.isEmpty = true) (hf : u.fragment.isEmpty = true) :
    urlString u = preQueryStr u := by
  rw [urlString_eq_preQuery, if_neg (by simp [hfq, hq]), if_pos hf,
    List.append_nil, List.append_nil]

theorem urlString_query (u : GoURL) (hcond : (u.forceQuery || ! u.rawQuery.isEmpty) = true)
    (hf : u.fragment.isEmpty = true) :
    urlString u = preQueryStr u ++ '?' :: u.rawQuery := by
  rw [urlString_eq_preQuery, if_pos hcond, if_pos hf, List.append_nil]

theorem urlString_frag (u : GoURL) (hf : u.fragment.isEmpty = false) :
    urlString u = (preQueryStr u ++
      (if u.forceQuery || ! u.rawQuery.isEmpty then '?' :: u.rawQuery else [])) ++
      '#' :: u.fragment := by
  rw [urlString_eq_preQuery]
  congr 1
  rw [if_neg (by simp [hf])]

theorem trimU_print (u : GoURL) (hw : wfURL u = true)
    (hfr : u.fragment = [] ∨ trimSlashes u.fragment ≠ []) :
    trimSlashes (urlString u) = urlString (trimU u) := by
  have hw2 := hw
  simp only [wfURL, pwfURL, Bool.and_eq_true] at hw2
  obtain ⟨⟨⟨⟨⟨⟨⟨_, _⟩, _⟩, _⟩, _⟩, hfq⟩, _⟩, _⟩ := hw2
  unfold trimU
  by_cases hfe : u.fragment.isEmpty = true
  · rw [if_neg (by simp [hfe])]
    by_cases hqf : u.forceQuery = true
    · rw [if_pos hqf]
      have hq0 : u.rawQuery = [] := by
        rw [hqf] at hfq
        simpa [List.isEmpty_iff] using hfq
      have e2 : urlString u = preQueryStr u ++ ['?'] := by
        rw [urlString_query u (by simp [hqf]) hfe, hq0]
      rw [e2, trimSlashes_append]
      have hv : trimSlashes ['?'] = ['?'] := by decide
      rw [hv, if_neg (by simp), ← e2]
    · rw [if_neg hqf]
      have hqfF : u.forceQuery = false := by
        revert hqf
        cases u.forceQuery <;> simp
      by_cases hqe : u.rawQuery.isEmpty = true
      · rw [if_neg (by simp [hqe])]
        rw [urlString_plain u hqfF hqe hfe]
        have e3 : urlString { u with path := trimSlashes u.path } =
            preQueryStr { u with path := trimSlashes u.path } :=
          urlString_plain _ hqfF hqe hfe
        rw [e3, preQuery_trimU_path]
        unfold preQueryStr
        rw [trimSlashes_append]
        by_cases hpt : trimSlashes u.path = []
        · rw [if_pos hpt, hpt, List.append_nil]
          exact trimSlashes_of_getLast_ne _ (schemeHost_getLast u hw)
        · rw [if_neg hpt]
      · rw [if_pos (by simpa using hqe)]
        have hqcond : (u.forceQuery || ! u.rawQuery.isEmpty) = true := by
          simp [hqe]
        rw [urlString_query u hqcond hfe, trimSlashes_append]
        have hq' := trimSlashes_cons_qm u.rawQuery
        by_cases hqt : (trimSlashes u.rawQuery).isEmpty = true
        · rw [if_pos hqt]
          have hqt0 : trimSlashes u.rawQuery = [] := List.isEmpty_iff.mp hqt
          have hv : trimSlashes ('?' :: u.rawQuery) = ['?'] := by
            rw [hq', if_pos hqt0]
          rw [hv, if_neg (by simp)]
          have e4 : urlString { u with rawQuery := [], forceQuery := true } =
              preQueryStr u ++ '?' :: ([] : Str) :=
            urlString_query _ (by simp) hfe
          rw [e4]
        · rw [if_neg hqt]
          have hqt0 : trimSlashes u.rawQuery ≠ [] := by
            simpa [List.isEmpty_iff] using hqt
          have hv : trimSlashes ('?' :: u.rawQuery) = '?' :: trimSlashes u.rawQuery := by
            rw [hq', if_neg hqt0]
          rw [hv, if_neg (by simp)]
          have e4 : urlString { u with rawQuery := trimSlashes u.rawQuery } =
              preQueryStr u ++ '?' :: trimSlashes u.rawQuery :=
            urlString_query _ (by simpa using Or.inr hqt0) hfe
          rw [e4]
  · rw [if_pos (by simpa using hfe)]
    have hfeF : u.fragment.isEmpty = false := by
      revert hfe
      cases u.fragment.isEmpty <;> simp
    have hfrne : u.fragment ≠ [] := by simpa [List.isEmpty_iff] using hfeF
    have htf : trimSlashes u.fragment ≠ [] := by
      rcases hfr with h | h
      · exact absurd h hfrne
      · exact h
    rw [urlString_frag u hfeF, trimSlashes_append]
    have hv := trimSlashes_cons_hash u.fragment htf
    rw [hv, if_neg (by simp)]
    have e4 : urlString { u with fragment := trimSlashes u.fragment } =
        (preQueryStr u ++
          (if u.forceQuery || ! u.rawQuery.isEmpty then '?' :: u.rawQuery else [])) ++
        '#' :: trimSlashes u.fragment :=
      urlString_frag _ (by simpa [List.isEmpty_iff] using htf)
    rw [e4]

theorem prefix_take_eq (a b : Str) (h : a <+: b) (n : Nat) (hn : n ≤ a.length) :
    a.take n = b.take n := by
  obtain ⟨t, rfl⟩ := h
  rw [List.take_append_of_le_length hn]

theorem prefix_head_eq (a b : Str) (h : a <+: b) (ha : a ≠ []) :
    b.head? = a.head? := by
  obtain ⟨t, rfl⟩ := h
  rw [List.head?_append_of_ne_nil _ ha]

theorem trimU_wf (u : GoURL) (hw : wfURL u = true) : wfURL (trimU u) = true := by
  have hw2 := hw
  simp only [wfURL, pwfURL, Bool.and_eq_true] at hw2
  obtain ⟨⟨⟨⟨⟨⟨⟨hso, hhost⟩, hpath⟩, hshape⟩, hquery⟩, hfq⟩, hfrag⟩, hsch⟩ := hw2
  unfold trimU
  by_cases hfe : u.fragment.isEmpty = true
  · rw [if_neg (by simp [hfe])]
    by_cases hqf : u.forceQuery = true
    · rw [if_pos hqf]
      exact hw
    · rw [if_neg hqf]
      have hqfF : u.forceQuery = false := by
        revert hqf
        cases u.forceQuery <;> simp
      by_cases hqe : u.rawQuery.isEmpty = true
      · rw [if_neg (by simp [hqe])]
        simp only [wfURL, pwfURL, Bool.and_eq_true]
        refine ⟨⟨⟨⟨⟨⟨⟨hso, hhost⟩, ?_⟩, ?_⟩, hquery⟩, hfq⟩, hfrag⟩, hsch⟩
        · exact all_of_sublist (trimSlashes_prefixOf u.path).sublist hpath
        · by_cases hh : u.host.isEmpty = true
          · rw [if_pos hh] at hshape ⊢
            by_cases ht2 : (trimSlashes u.path).take 2 = ['/', '/']
            · have hlen2 : 2 ≤ (trimSlashes u.path).length := by
                have := congrArg List.length ht2
                rw [List.length_take] at this
                simp at this
                omega
              have ht2p : u.path.take 2 = ['/', '/'] := by
                rw [← prefix_take_eq _ _ (trimSlashes_prefixOf u.path) 2 hlen2]
                exact ht2
              have ht3p : u.path.take 3 = ['/', '/', '/'] := by
                rcases Bool.or_eq_true_iff.mp hshape with h | h
                · rw [ht2p] at h
                  simp at h
                · simpa using h
              have hlen3 : 3 ≤ (trimSlashes u.path).length := by
                rcases Nat.lt_or_ge (trimSlashes u.path).length 3 with hl | hl
                · exfalso
                  have hplen : (trimSlashes u.path).length = 2 := by omega
                  have hpeq : trimSlashes u.path = ['/', '/'] := by
                    rw [← ht2]
                    rw [List.take_of_length_le (by omega)]
                  have := trimSlashes_getLast_ne u.path
                  rw [hpeq] at this
                  simp at this
                · exact hl
              have ht3 : (trimSlashes u.path).take 3 = ['/', '/', '/'] := by
                rw [prefix_take_eq _ _ (trimSlashes_prefixOf u.path) 3 hlen3]
                exact ht3p
              rw [Bool.or_eq_true]
              right
              simp [ht3]
            · rw [Bool.or_eq_true]
              left
              simp only [Bool.not_eq_true', beq_eq_false_iff_ne, ne_eq]
              exact ht2
          · rw [if_neg hh] at hshape ⊢
            by_cases hpt : trimSlashes u.path = []
            · simp [hpt]
            · rw [Bool.or_eq_true]
              right
              have hpne : u.path ≠ [] := by
                intro h0
                apply hpt
                rw [h0]
                rfl
              have hhead : u.path.head? = some '/' := by
                rcases Bool.or_eq_true_iff.mp hshape with h | h
                · exact absurd (List.isEmpty_iff.mp h) hpne
                · simpa using h
              have := prefix_head_eq _ _ (trimSlashes_prefixOf u.path) hpt
              rw [← this]
              simp [hhead]
      · rw [if_pos (by simpa using hqe)]
        by_cases hqt : (trimSlashes u.rawQuery).isEmpty = true
        · rw [if_pos hqt]
          simp only [wfURL, pwfURL, Bool.and_eq_true]
          exact ⟨⟨⟨⟨⟨⟨⟨hso, hhost⟩, hpath⟩, hshape⟩, by simp⟩, by simp⟩, hfrag⟩, hsch⟩
        · rw [if_neg hqt]
          simp only [wfURL, pwfURL, Bool.and_eq_true]
          refine ⟨⟨⟨⟨⟨⟨⟨hso, hhost⟩, hpath⟩, hshape⟩, ?_⟩, by simp [hqfF]⟩, hfrag⟩, hsch⟩
          exact all_of_sublist (trimSlashes_prefixOf u.rawQuery).sublist hquery
  · rw [if_pos (by simpa using hfe)]
    simp only [wfURL, pwfURL, Bool.and_eq_true]
    refine ⟨⟨⟨⟨⟨⟨⟨hso, hhost⟩, hpath⟩, hshape⟩, hquery⟩, hfq⟩, ?_⟩, hsch⟩
    exact all_of_sublist (trimSlashes_prefixOf u.fragment).sublist hfrag

theorem trimU_noslash (u : GoURL) (hw : wfURL u = true)
    (hfr : u.fragment = [] ∨ trimSlashes u.fragment ≠ []) :
    (urlString (trimU u)).getLast? ≠ some '/' := by
  have hw2 := hw
  simp only [wfURL, pwfURL, Bool.and_eq_true] at hw2
  obtain ⟨⟨⟨⟨⟨⟨⟨_, _⟩, _⟩, _⟩, _⟩, hfq⟩, _⟩, _⟩ := hw2
  unfold trimU
  by_cases hfe : u.fragment.isEmpty = true
  · rw [if_neg (by simp [hfe])]
    by_cases hqf : u.forceQuery = true
    · rw [if_pos hqf]
      have hq0 : u.rawQuery = [] := by
        rw [hqf] at hfq
        simpa [List.isEmpty_iff] using hfq
      rw [urlString_query u (by simp [hqf]) hfe, hq0]
      rw [getLast?_append_ne _ _ (by simp)]
      simp
    · rw [if_neg hqf]
      have hqfF : u.forceQuery = false := by
        revert hqf
        cases u.forceQuery <;> simp
      by_cases hqe : u.rawQuery.isEmpty = true
      · rw [if_neg (by simp [hqe])]
        rw [urlString_plain { u with path := trimSlashes u.path } hqfF hqe hfe,
          preQuery_trimU_path]
        by_cases hpt : trimSlashes u.path = []
        · rw [hpt, List.append_nil]
          exact schemeHost_getLast u hw
        · rw [getLast?_append_ne _ _ hpt]
          exact trimSlashes_getLast_ne u.path
      · rw [if_pos (by simpa using hqe)]
        by_cases hqt : (trimSlashes u.rawQuery).isEmpty = true
        · rw [if_pos hqt]
          rw [urlString_query { u with rawQuery := [], forceQuery := true } (by simp) hfe]
          rw [getLast?_append_ne _ _ (by simp)]
          simp
        · rw [if_neg hqt]
          have hqt0 : trimSlashes u.rawQuery ≠ [] := by
            simpa [List.isEmpty_iff] using hqt
          have hqtF : (trimSlashes u.rawQuery).isEmpty = false := by
            revert hqt
            cases (trimSlashes u.rawQuery).isEmpty <;> simp
          rw [urlString_query { u with rawQuery := trimSlashes u.rawQuery }
            (by simp [hqtF]) hfe]
          rw [getLast?_append_ne _ _ (by simp)]
          have h3 : ('?' :: trimSlashes u.rawQuery).getLast? =
              (trimSlashes u.rawQuery).getLast? := by
            have h4 := getLast?_append_ne ['?'] _ hqt0
            simpa using h4
          rw [h3]
          exact trimSlashes_getLast_ne u.rawQuery
  · rw [if_pos (by simpa using hfe)]
    have hfeF : u.fragment.isEmpty = false := by
      revert hfe
      cases u.fragment.isEmpty <;> simp
    have hfrne : u.fragment ≠ [] := by simpa [List.isEmpty_iff] using hfeF
    have htf : trimSlashes u.fragment ≠ [] := by
      rcases hfr with h | h
      · exact absurd h hfrne
      · exact h
    have htfF : (trimSlashes u.fragment).isEmpty = false := by
      rw [Bool.eq_false_iff]
      simpa [List.isEmpty_iff] using htf
    rw [urlString_frag { u with fragment := trimSlashes u.fragment } htfF]
    rw [getLast?_append_ne _ _ (by simp)]
    have h3 : ('#' :: ({ u with fragment := trimSlashes u.fragment } : GoURL).fragment).getLast? =
        (trimSlashes u.fragment).getLast? := by
      have h4 := getLast?_append_ne ['#'] _ htf
      simpa using h4
    rw [h3]
    exact trimSlashes_getLast_ne u.fragment

theorem cleanLink_some (base : GoURL) (link out : Str) (h : cleanLink base link = some out) :
    ∃ pl, parseURL link = some pl ∧
      out = trimSlashes (urlString (absOrResolve base pl)) := by
  unfold cleanLink at h
  cases hp : parseURL link with
  | none => rw [hp] at h; simp at h
  | some pl =>
      rw [hp] at h
      simp only [Option.some.injEq] at h
      exact ⟨pl, rfl, h.symm⟩

theorem trimU_scheme (u : GoURL) : (trimU u).scheme = u.scheme := by
  unfold trimU
  split_ifs <;> rfl

theorem wf_scheme_ne_nil (u : GoURL) (hw : wfURL u = true) : u.scheme ≠ [] := by
  have h2 := (Bool.and_eq_true_iff.mp hw).2
  intro h0
  rw [h0] at h2
  simp [schemeOK] at h2

/-- Core idempotence: a normalized link whose normal form does not end in
`#` renormalizes to itself. -/
theorem cleanLink_idempotent (base : GoURL) (hb : wfURL base = true)
    (hbh : base.host.isEmpty = false) (link out : Str)
    (h : cleanLink base link = some out) (hnf : out.getLast? ≠ some '#') :
    cleanLink base out = some out := by
  obtain ⟨pl, hp, rfl⟩ := cleanLink_some base link _ h
  have hpwf := parseURL_pwf _ _ hp
  have huwf : wfURL (absOrResolve base pl) = true := resolve_wf base pl hb hbh hpwf
  generalize hu : absOrResolve base pl = u at *
  have hfr : u.fragment = [] ∨ trimSlashes u.fragment ≠ [] := by
    by_contra hcon
    push_neg at hcon
    obtain ⟨hne, hnil⟩ := hcon
    apply hnf
    have hfeF : u.fragment.isEmpty = false := by
      rw [Bool.eq_false_iff]
      simpa [List.isEmpty_iff] using hne
    rw [urlString_frag u hfeF, trimSlashes_append]
    have hv := trimSlashes_cons_hash_nil u.fragment hnil
    rw [hv, if_neg (by simp)]
    rw [getLast?_append_ne _ _ (by simp)]
    rfl
  have h1 := trimU_print u huwf hfr
  have h2 := trimU_wf u huwf
  have h3 := trimU_noslash u huwf hfr
  rw [h1]
  unfold cleanLink
  rw [parse_urlString _ h2]
  have habs : isAbs (trimU u) = true := by
    unfold isAbs
    rw [trimU_scheme]
    have := wf_scheme_ne_nil u huwf
    simpa [List.isEmpty_iff] using this
  unfold absOrResolve
  simp only [habs, if_true]
  rw [trimSlashes_of_getLast_ne _ h3]

/-! ### Appending a trailing slash before normalization -/

theorem parseNoQ (sch r : Str) (hq : r.all (· ≠ '?') = true) :
    parseAfterScheme sch r [] =
      (if r.take 2 = ['/', '/'] ∧ ¬ r.take 3 = ['/', '/', '/'] then
        { scheme := sch, host := (splitAuthority (r.drop 2)).1,
          path := (splitAuthority (r.drop 2)).2, rawQuery := [], forceQuery := false,
          fragment := [] }
      else { scheme := sch, host := [], path := r, rawQuery := [], forceQuery := false,
             fragment := [] } : GoURL) := by
  unfold parseAfterScheme
  rw [splitQuery_no r hq]

theorem urlString_no_extras (sch host p : Str) :
    urlString ⟨sch, host, p, [], false, []⟩ =
      ((if sch.isEmpty then [] else sch ++ [':']) ++
        (if host.isEmpty then [] else '/' :: '/' :: host)) ++ p := by
  unfold urlString
  simp

theorem resolveRef_merge (base : GoURL) (p : Str) (hp : p ≠ []) :
    resolveReference base ⟨[], [], p, [], false, []⟩ =
      ⟨base.scheme, base.host, mergePath base.path p, [], false, []⟩ := by
  unfold resolveReference
  rw [if_neg (by simp [isAbs]), if_neg (by simp),
    if_neg (by simp [List.isEmpty_iff, hp])]

theorem resolveRef_protorel (base : GoURL) (host p : Str) (hh : host ≠ []) :
    resolveReference base ⟨[], host, p, [], false, []⟩ =
      ⟨base.scheme, host, p, [], false, []⟩ := by
  unfold resolveReference
  rw [if_neg (by simp [isAbs]), if_pos (by simpa [List.isEmpty_iff] using hh)]

theorem mergePath_append_slash (b p : Str) (hp : p ≠ []) :
    mergePath b (p ++ ['/']) = mergePath b p ++ ['/'] := by
  unfold mergePath
  rw [List.head?_append_of_ne_nil _ hp]
  by_cases hph : p.head? = some '/'
  · rw [if_pos hph, if_pos hph]
  · rw [if_neg hph, if_neg hph, List.append_assoc]

theorem absResolve_append (base : GoURL) (sch host p : Str)
    (hexc : sch = [] → ¬(host = [] ∧ p = [])) :
    trimSlashes (urlString (absOrResolve base ⟨sch, host, p ++ ['/'], [], false, []⟩)) =
    trimSlashes (urlString (absOrResolve base ⟨sch, host, p, [], false, []⟩)) := by
  unfold absOrResolve
  by_cases habs : sch.isEmpty = true
  · have hsch0 : sch = [] := List.isEmpty_iff.mp habs
    subst hsch0
    rw [if_neg (show ¬ isAbs ⟨[], host, p ++ ['/'], [], false, []⟩ = true by simp [isAbs]),
      if_neg (show ¬ isAbs ⟨[], host, p, [], false, []⟩ = true by simp [isAbs])]
    by_cases hh : host = []
    · subst hh
      have hpne : p ≠ [] := fun h0 => (hexc rfl) ⟨rfl, h0⟩
      rw [resolveRef_merge base (p ++ ['/']) (by simp), resolveRef_merge base p hpne]
      rw [mergePath_append_slash _ _ hpne]
      rw [urlString_no_extras, urlString_no_extras, ← List.append_assoc]
      exact trimSlashes_concat_slash _
    · rw [resolveRef_protorel base host (p ++ ['/']) hh, resolveRef_protorel base host p hh]
      rw [urlString_no_extras, urlString_no_extras, ← List.append_assoc]
      exact trimSlashes_concat_slash _
  · have habs1 : isAbs ⟨sch, host, p ++ ['/'], [], false, []⟩ = true := by
      simp only [isAbs]
      simp [habs]
    have habs2 : isAbs ⟨sch, host, p, [], false, []⟩ = true := by
      simp only [isAbs]
      simp [habs]
    rw [if_pos habs1, if_pos habs2]
    rw [urlString_no_extras, urlString_no_extras, ← List.append_assoc]
    exact trimSlashes_concat_slash _

theorem cleanLink_noq (base : GoURL) (s : Str) (hctl : ctlFree s = true)
    (hhash : s.all (· ≠ '#') = true) :
    cleanLink base s =
      (match getScheme s with
       | .err => none
       | .noScheme => some (trimSlashes (urlString (absOrResolve base
           (parseAfterScheme [] s []))))
       | .found sch r => some (trimSlashes (urlString (absOrResolve base
           (parseAfterScheme sch r []))))) := by
  unfold cleanLink parseURL
  rw [if_neg (by simp [hctl])]
  rw [cutAt_of_not_mem _ _ hhash]
  cases getScheme s <;> rfl

theorem take2_ne_of_ne_slash (r : Str) (hr : r ≠ ['/'])
    (h2 : ¬ r.take 2 = ['/', '/']) : ¬ (r ++ ['/']).take 2 = ['/', '/'] := by
  cases r with
  | nil => simp
  | cons c t =>
      cases t with
      | nil =>
          intro hcon
          simp only [List.cons_append, List.nil_append, List.take_succ_cons,
            List.take_zero] at hcon
          apply hr
          have := (List.cons.injEq c ['/'] '/' ['/']).mp (by simpa using hcon)
          simp [this.1]
      | cons d u =>
          intro hcon
          apply h2
          simpa using hcon

theorem length_two_of_take2 (r : Str) (h : r.take 2 = ['/', '/']) : 2 ≤ r.length := by
  have := congrArg List.length h
  rw [List.length_take] at this
  simp at this
  omega

theorem parseAS_slash (base : GoURL) (sch r : Str) (hq : r.all (· ≠ '?') = true)
    (hexc : sch = [] → (r ≠ [] ∧ r ≠ ['/'] ∧ r ≠ ['/', '/'])) :
    trimSlashes (urlString (absOrResolve base (parseAfterScheme sch (r ++ ['/']) []))) =
    trimSlashes (urlString (absOrResolve base (parseAfterScheme sch r []))) := by
  have hq' : (r ++ ['/']).all (· ≠ '?') = true := by
    rw [List.all_append, Bool.and_eq_true]
    exact ⟨hq, by decide⟩
  rw [parseNoQ sch r hq, parseNoQ sch (r ++ ['/']) hq']
  by_cases hC2 : r.take 2 = ['/', '/']
  · have hlen2 := length_two_of_take2 r hC2
    by_cases hC3 : r.take 3 = ['/', '/', '/']
    · -- rootless ///: both sides take the path reading
      have hlen3 : 3 ≤ r.length := by
        have := congrArg List.length hC3
        rw [List.length_take] at this
        simp at this
        omega
      have hC2' : (r ++ ['/']).take 2 = ['/', '/'] := by
        rw [List.take_append_of_le_length (by omega)]
        exact hC2
      have hC3' : (r ++ ['/']).take 3 = ['/', '/', '/'] := by
        rw [List.take_append_of_le_length (by omega)]
        exact hC3
      rw [if_neg (by simp [hC3']), if_neg (by simp [hC3])]
      exact absResolve_append base sch [] r
        (fun h0 => fun ⟨_, hp0⟩ => (hexc h0).1 hp0)
    · by_cases hlen3 : 3 ≤ r.length
      · -- a real authority on both sides
        have hC2' : (r ++ ['/']).take 2 = ['/', '/'] := by
          rw [List.take_append_of_le_length (by omega)]
          exact hC2
        have hC3' : ¬ (r ++ ['/']).take 3 = ['/', '/', '/'] := by
          rw [List.take_append_of_le_length (by omega)]
          exact hC3
        rw [if_pos ⟨hC2', hC3'⟩, if_pos ⟨hC2, hC3⟩]
        have hdrop : (r ++ ['/']).drop 2 = r.drop 2 ++ ['/'] :=
          List.drop_append_of_le_length (by omega)
        rw [hdrop, splitAuthority_concat]
        have hhostne : (splitAuthority (r.drop 2)).1 ≠ [] := by
          -- were the host empty, the remainder would start with ///
          intro h0
          apply hC3
          unfold splitAuthority at h0
          have hD : r.drop 2 ≠ [] := by
            intro hD0
            have := congrArg List.length hD0
            rw [List.length_drop] at this
            simp at this
            omega
          cases hDc : r.drop 2 with
          | nil => exact absurd hDc hD
          | cons c t =>
              rw [hDc] at h0
              rw [List.takeWhile_cons] at h0
              by_cases hcs : c = '/'
              · have hr3 : r = ['/', '/'] ++ r.drop 2 := by
                  conv_lhs => rw [← List.take_append_drop 2 r]
                  rw [hC2]
                rw [hr3, hDc, hcs]
                rfl
              · rw [if_pos (by simpa using hcs)] at h0
                simp at h0
        exact absResolve_append base sch _ _
          (fun h0 => fun ⟨hh0, _⟩ => hhostne hh0)
      · -- r is exactly // : flips from authority to rootless path
        have hrlen : r.length = 2 := by omega
        have hr2 : r = ['/', '/'] := by
          rw [← hC2, List.take_of_length_le (by omega)]
        have hschne : sch ≠ [] := by
          intro h0
          exact (hexc h0).2.2 hr2
        subst hr2
        have habs1 : isAbs (⟨sch, [], ['/', '/', '/'], [], false, []⟩ : GoURL) = true := by
          simp [isAbs, List.isEmpty_iff, hschne]
        have habs2 : isAbs (⟨sch, [], [], [], false, []⟩ : GoURL) = true := by
          simp [isAbs, List.isEmpty_iff, hschne]
        rw [if_neg (by simp), if_pos (by constructor <;> simp)]
        show trimSlashes (urlString (absOrResolve base ⟨sch, [], ['/', '/', '/'], [], false, []⟩)) =
          trimSlashes (urlString (absOrResolve base ⟨sch, [], [], [], false, []⟩))
        unfold absOrResolve
        rw [if_pos habs1, if_pos habs2]
        rw [urlString_no_extras, urlString_no_extras]
        have hse : sch.isEmpty = false := by
          rw [Bool.eq_false_iff]
          simpa [List.isEmpty_iff] using hschne
        rw [if_neg (by simp [hse])]
        simp only [List.isEmpty_nil, if_true, List.append_nil]
        have h1 : trimSlashes ((sch ++ [':']) ++ ['/', '/', '/']) = sch ++ [':'] := by
          rw [trimSlashes_append, if_pos (by decide)]
          apply trimSlashes_of_getLast_ne
          rw [List.getLast?_concat]
          simp
        have h2 : trimSlashes (sch ++ [':']) = sch ++ [':'] := by
          apply trimSlashes_of_getLast_ne
          rw [List.getLast?_concat]
          simp
        rw [h1, h2]
  · -- no authority on the left; appending / can only create // out of /
    by_cases hr : r = ['/']
    · -- scheme:/ versus scheme://
      subst hr
      have hschne : sch ≠ [] := fun h0 => (hexc h0).2.1 rfl
      rw [if_pos (by constructor <;> decide), if_neg (by simp [hC2])]
      show trimSlashes (urlString (absOrResolve base ⟨sch, [], [], [], false, []⟩)) =
        trimSlashes (urlString (absOrResolve base ⟨sch, [], ['/'], [], false, []⟩))
      unfold absOrResolve
      have habs1 : isAbs (⟨sch, [], [], [], false, []⟩ : GoURL) = true := by
        simp [isAbs, List.isEmpty_iff, hschne]
      have habs2 : isAbs (⟨sch, [], ['/'], [], false, []⟩ : GoURL) = true := by
        simp [isAbs, List.isEmpty_iff, hschne]
      rw [if_pos habs1, if_pos habs2]
      rw [urlString_no_extras, urlString_no_extras]
      have hse : sch.isEmpty = false := by
        rw [Bool.eq_false_iff]
        simpa [List.isEmpty_iff] using hschne
      rw [if_neg (by simp [hse])]
      simp only [List.isEmpty_nil, if_true, List.append_nil]
      have h1 : trimSlashes ((sch ++ [':']) ++ ['/']) = sch ++ [':'] := by
        rw [trimSlashes_concat_slash]
        apply trimSlashes_of_getLast_ne
        rw [List.getLast?_concat]
        simp
      have h2 : trimSlashes (sch ++ [':']) = sch ++ [':'] := by
        apply trimSlashes_of_getLast_ne
        rw [List.getLast?_concat]
        simp
      rw [h1, h2]
    · have hC2' := take2_ne_of_ne_slash r hr hC2
      rw [if_neg (by simp [hC2']), if_neg (by simp [hC2])]
      exact absResolve_append base sch [] r
        (fun h0 => fun ⟨_, hp0⟩ => (hexc h0).1 hp0)

/-- Appending a trailing path separator does not change the normalized link,
for any reference that is not composed solely of slashes and carries no query
or fragment marker. -/
theorem cleanLink_trailing_slash (base : GoURL) (s : Str)
    (hne : trimSlashes s ≠ [])
    (hclean : s.all (fun c => !(c == '#') && !(c == '?')) = true) :
    cleanLink base (s ++ ['/']) = cleanLink base s := by
  have hhash : s.all (· ≠ '#') = true :=
    all_imp _ hclean (fun c hc => by
      have h2 := (Bool.and_eq_true_iff.mp hc).1
      rw [Bool.not_eq_true', beq_eq_false_iff_ne] at h2
      simpa using h2)
  have hq : s.all (· ≠ '?') = true :=
    all_imp _ hclean (fun c hc => by
      have h2 := (Bool.and_eq_true_iff.mp hc).2
      rw [Bool.not_eq_true', beq_eq_false_iff_ne] at h2
      simpa using h2)
  have hsne : s ≠ [] := fun h0 => hne (by rw [h0]; rfl)
  have hs1 : s ≠ ['/'] := fun h0 => hne (by rw [h0]; decide)
  have hs2 : s ≠ ['/', '/'] := fun h0 => hne (by rw [h0]; decide)
  have hhash' : (s ++ ['/']).all (· ≠ '#') = true := by
    rw [List.all_append, Bool.and_eq_true]
    exact ⟨hhash, by decide⟩
  by_cases hctl : ctlFree s = true
  · have hctl' : ctlFree (s ++ ['/']) = true := by
      unfold ctlFree at hctl ⊢
      rw [List.all_append, Bool.and_eq_true]
      exact ⟨hctl, by decide⟩
    rw [cleanLink_noq base s hctl hhash, cleanLink_noq base (s ++ ['/']) hctl' hhash']
    have hgs := getSchemeAux_concat_slash s []
    cases hg : getScheme s with
    | err =>
        have hg' : getScheme (s ++ ['/']) = .err := by
          unfold getScheme at hg ⊢
          rw [hgs, hg]
        rw [hg']
    | noScheme =>
        have hg' : getScheme (s ++ ['/']) = .noScheme := by
          unfold getScheme at hg ⊢
          rw [hgs, hg]
        rw [hg']
        dsimp only
        congr 1
        exact parseAS_slash base [] s hq (fun _ => ⟨hsne, hs1, hs2⟩)
    | found sch r =>
        have hg' : getScheme (s ++ ['/']) = .found sch (r ++ ['/']) := by
          unfold getScheme at hg ⊢
          rw [hgs, hg]
        rw [hg']
        dsimp only
        congr 1
        have hg2 : getSchemeAux [] s = .found sch r := by
          unfold getScheme at hg
          exact hg
        have hschOK := getSchemeAux_found_schemeOK s [] sch r (Or.inl rfl) hg2
        have hschne : sch ≠ [] := by
          intro h0
          rw [h0] at hschOK
          simp [schemeOK] at hschOK
        have hrq : r.all (· ≠ '?') = true :=
          all_of_sublist (getSchemeAux_rest_suffix s [] sch r hg2).sublist hq
        exact parseAS_slash base sch r hrq (fun h0 => absurd h0 hschne)
  · unfold cleanLink parseURL
    have hctl2 : ¬ ctlFree (s ++ ['/']) = true := by
      intro hcon
      apply hctl
      unfold ctlFree at hcon ⊢
      rw [List.all_append] at hcon
      exact (Bool.and_eq_true_iff.mp hcon).1
    rw [if_pos (by simpa using hctl2), if_pos (by simpa using hctl)]

/-! ### Reductions of `crawlURL` under explicit hypotheses -/

theorem crawlURL_success (cfg : Config) (env : PageEnv) (u : Str) (d : Nat)
    (v : List Str) (resp : FetchResp) (page : ParsedPage)
    (hd : d < cfg.maxDepth) (hc : env.cancelAtLimiter = false)
    (hr : env.reqCreateFails = false) (hf : env.fetch = .ok resp)
    (hs : resp.status = 200)
    (hh : isAllowedHost cfg (urlString resp.finalURL) = true)
    (hct : containsSub (toLowerStr resp.contentType) ("text/html".toList) = true)
    (hpg : env.render = .ok page) :
    crawlURL cfg env u d v =
      ({ url := u, content := page.text,
         links := (collectLinks v resp.finalURL page.links).1, depth := d,
         summary := (if page.text.isEmpty then []
                     else match env.summarize with
                       | .ok s => s
                       | .error _ => []),
         error := none }, (collectLinks v resp.finalURL page.links).2) := by
  unfold crawlURL
  rw [if_neg (by omega), if_neg (by simp [hc]), if_neg (by simp [hr]), hf]
  dsimp only
  rw [if_neg (by simp [hs]), if_neg (by simp [hh]), if_neg (by rw [hct]; simp), hpg]

theorem crawlURL_disallowed (cfg : Config) (env : PageEnv) (u : Str) (d : Nat)
    (v : List Str) (resp : FetchResp)
    (hd : d < cfg.maxDepth) (hc : env.cancelAtLimiter = false)
    (hr : env.reqCreateFails = false) (hf : env.fetch = .ok resp)
    (hs : resp.status = 200)
    (hh : isAllowedHost cfg (urlString resp.finalURL) = false) :
    crawlURL cfg env u d v =
      ({ url := u, content := [], links := [], depth := d, summary := [],
         error := some (.disallowedHost (urlString resp.finalURL)) }, v) := by
  unfold crawlURL
  rw [if_neg (by omega), if_neg (by simp [hc]), if_neg (by simp [hr]), hf]
  dsimp only
  rw [if_neg (by simp [hs]), if_pos (by simp [hh])]

/-- The host check re-parses the printed final URL; for a well-formed final
URL this reduces to the substring test on its host. -/
theorem isAllowedHost_wf (cfg : Config) (u : GoURL) (hw : wfURL u = true) :
    isAllowedHost cfg (urlString u) =
      (cfg.allowedHost.isEmpty || containsSub u.host cfg.allowedHost) := by
  unfold isAllowedHost
  by_cases h : cfg.allowedHost.isEmpty = true
  · rw [if_pos h, h]
    simp
  · rw [if_neg h, parse_urlString u hw]
    have h2 : cfg.allowedHost.isEmpty = false := by
      rw [Bool.eq_false_iff]
      exact h
    dsimp only
    rw [h2]
    simp

theorem collectLinks_mem (links : List Str) : ∀ (visited : List Str) (base : GoURL)
    (l ns : Str), l ∈ links → cleanLink base l = some ns →
    visited.contains ns = false → ns ∈ (collectLinks visited base links).1 := by
  induction links with
  | nil => intro _ _ _ _ h; simp at h
  | cons hd tl ih =>
      intro visited base l ns hmem hclean hvis
      rcases List.mem_cons.mp hmem with rfl | hmem2
      · rw [collectLinks, hclean]
        dsimp only
        rw [hvis]
        simp only [Bool.false_eq_true, if_false]
        simp
      · rw [collectLinks]
        cases hcl : cleanLink base hd with
        | none =>
            dsimp only
            exact ih visited base l ns hmem2 hclean hvis
        | some cl =>
            dsimp only
            by_cases hv2 : visited.contains cl = true
            · rw [hv2]
              simp only [if_true]
              exact ih visited base l ns hmem2 hclean hvis
            · rw [Bool.not_eq_true] at hv2
              rw [hv2]
              simp only [Bool.false_eq_true, if_false]
              by_cases hns : cl = ns
              · subst hns
                simp
              · have hvis2 : (visited ++ [cl]).contains ns = false := by
                  rw [List.contains_eq_any_beq, List.any_append, Bool.or_eq_false_iff]
                  constructor
                  · rw [← List.contains_eq_any_beq]
                    exact hvis
                  · simp only [List.any_cons, List.any_nil, Bool.or_false]
                    rw [beq_eq_false_iff_ne]
                    exact fun e => hns e.symm
                have := ih (visited ++ [cl]) base l ns hmem2 hclean hvis2
                simp only [List.mem_cons]
                right
                exact this

/-! ### The claims -/

/-- Claim C1 (code bug exhibit).  The spec states that a discovered link
passing the depth check (`d+1 ≤ maxDepth`) and admitted by the dedup store
is pushed back into the Frontier as a Job at depth `d+1`.  The code contains
no such push: the only send into the `jobs` channel is the seed (part_000
line 109) and the channel is closed immediately after, while workers call
`crawlURL` with depth 0 and only record links in `Result.Links`.  At this
concrete crawl the admissible link `http://example.com/b` (`0+1 ≤ maxDepth`,
admitted into the visited set) appears in the published result and in the
dedup store, yet the frontier holds only the seed and the only dispatched
job is the seed. -/
theorem crawl_discovered_links_never_requeued :
    crawlRun cfgA envA false seedA = .ok
      { workersSpawned := 2,
        frontier := some [seedA],
        dispatched := [(seedA, 0)],
        published := [{ url := seedA, content := "hello world".toList,
                        links := ["http://example.com/b".toList], depth := 0,
                        summary := "summary".toList, error := none }],
        finalVisited := ["http://example.com/b".toList] } ∧
    0 + 1 ≤ cfgA.maxDepth := by
  exact ⟨by rfl, by decide⟩

/-- Claim C2 (amended).  A Job at `depth ≥ maxDepth` is not processed at
all: `crawlURL` returns immediately with a Result carrying only the URL and
depth — no fetch, no content, no links, no summary, and no error — and the
visited set is untouched.  (The original claim said such a Job is still
fully processed for content and summary; the code's depth gate at part_000
lines 121-123 returns the empty Result instead.) -/
theorem crawlURL_depth_gate_returns_empty (cfg : Config) (env : PageEnv)
    (u : Str) (d : Nat) (v : List Str) (hd : cfg.maxDepth ≤ d) :
    crawlURL cfg env u d v =
      ({ url := u, content := [], links := [], depth := d, summary := [],
         error := none }, v) := by
  unfold crawlURL
  rw [if_pos hd]

/-- Witness for claim C2's amended theorem at a concrete Job of depth 1 with
`maxDepth = 1`. -/
theorem crawlURL_depth_gate_returns_empty_witness :
    crawlURL ⟨1, 1, []⟩ envA seedA 1 [] =
      ({ url := seedA, content := [], links := [], depth := 1, summary := [],
         error := none }, []) :=
  crawlURL_depth_gate_returns_empty ⟨1, 1, []⟩ envA seedA 1 [] (by decide)

/-- Counterexample to claim C2 as stated: with `maxDepth = 1`, a depth-1 Job
whose environment would deliver a 200 `text/html` page with non-empty text
and a succeeding summarizer still yields a Result with empty content, empty
links and empty summary. -/
theorem crawlURL_depth_gate_cex :
    (crawlURL ⟨1, 1, []⟩ envA seedA 1 []).1.content = [] ∧
    (crawlURL ⟨1, 1, []⟩ envA seedA 1 []).1.links = [] ∧
    (crawlURL ⟨1, 1, []⟩ envA seedA 1 []).1.summary = [] ∧
    envA.render = .ok pageA ∧ pageA.text = "hello world".toList ∧
    envA.summarize = .ok ("summary".toList) := by
  refine ⟨by rfl, by rfl, by rfl, by rfl, by rfl, by rfl⟩

/-- Claim C3 (amended).  Exactly one Job is dispatched per crawl (the seed),
and exactly one Result is produced and published for it when cancellation is
not observed at the publication select; when cancellation fires there, the
worker returns without sending and the produced Result is dropped, so
nothing is published.  (The original claim said a Result is published even
for Jobs abandoned when cancellation fires; the select at part_000 lines
94-98 drops it.) -/
theorem worker_publishes_iff_not_cancelled (cfg : Config) (env : PageEnv)
    (cancel : Bool) (seed : Str) (o : CrawlOutcome)
    (h : crawlRun cfg env cancel seed = .ok o) :
    o.dispatched.length = 1 ∧
    (cancel = false → o.published.length = 1) ∧
    (cancel = true → o.published = []) := by
  unfold crawlRun at h
  cases hp : parseURL seed with
  | none =>
      rw [hp] at h
      exact absurd h (by simp)
  | some u =>
      rw [hp] at h
      dsimp only at h
      by_cases ha : isAbs u = true
      · rw [if_neg (by simp [ha])] at h
        simp only [Except.ok.injEq] at h
        subst h
        refine ⟨rfl, ?_, ?_⟩
        · intro hc
          subst hc
          unfold processJob
          simp
        · intro hc
          subst hc
          unfold processJob
          simp
      · rw [if_pos (by simpa using ha)] at h
        exact absurd h (by simp)

/-- Witness for claim C3's amended theorem at the concrete successful run. -/
theorem worker_publishes_iff_not_cancelled_witness :
    ({ workersSpawned := 2, frontier := some [seedA], dispatched := [(seedA, 0)],
       published := [{ url := seedA, content := "hello world".toList,
                       links := ["http://example.com/b".toList], depth := 0,
                       summary := "summary".toList, error := none }],
       finalVisited := ["http://example.com/b".toList] } : CrawlOutcome).dispatched.length = 1 ∧
    (false = false →
      ({ workersSpawned := 2, frontier := some [seedA], dispatched := [(seedA, 0)],
         published := [{ url := seedA, content := "hello world".toList,
                         links := ["http://example.com/b".toList], depth := 0,
                         summary := "summary".toList, error := none }],
         finalVisited := ["http://example.com/b".toList] } : CrawlOutcome).published.length = 1) ∧
    (false = true →
      ({ workersSpawned := 2, frontier := some [seedA], dispatched := [(seedA, 0)],
         published := [{ url := seedA, content := "hello world".toList,
                         links := ["http://example.com/b".toList], depth := 0,
                         summary := "summary".toList, error := none }],
         finalVisited := ["http://example.com/b".toList] } : CrawlOutcome).published = []) :=
  worker_publishes_iff_not_cancelled cfgA envA false seedA _ (by rfl)

/-- Counterexample to claim C3 as stated: when cancellation is observed at
the publication point, the dispatched seed Job's Result is dropped — one Job
was dispatched but nothing reaches the Result Stream. -/
theorem cancelled_publish_drops_result_cex :
    crawlRun cfgA envA true seedA = .ok
      { workersSpawned := 2, frontier := some [seedA], dispatched := [(seedA, 0)],
        published := [],
        finalVisited := ["http://example.com/b".toList] } := by
  rfl

/-- Claim C4.  With a configured allowed-host filter, a fetched location
whose final post-redirect host does not contain the configured substring
yields a Result carrying a `disallowedHost` error with empty content, links
and summary; with no filter configured, every URL string passes the host
check. -/
theorem host_filter_disallowed_sets_error (cfg : Config) (env : PageEnv)
    (u : Str) (d : Nat) (v : List Str) (resp : FetchResp)
    (hd : d < cfg.maxDepth) (hc : env.cancelAtLimiter = false)
    (hr : env.reqCreateFails = false) (hf : env.fetch = .ok resp)
    (hs : resp.status = 200) (hw : wfURL resp.finalURL = true)
    (hfil : cfg.allowedHost.isEmpty = false)
    (hhost : containsSub resp.finalURL.host cfg.allowedHost = false) :
    (crawlURL cfg env u d v).1.error =
      some (.disallowedHost (urlString resp.finalURL)) ∧
    (crawlURL cfg env u d v).1.content = [] ∧
    (crawlURL cfg env u d v).1.links = [] ∧
    (crawlURL cfg env u d v).1.summary = [] ∧
    (∀ (cfg2 : Config) (s : Str), cfg2.allowedHost.isEmpty = true →
      isAllowedHost cfg2 s = true) := by
  have hallow : isAllowedHost cfg (urlString resp.finalURL) = false := by
    rw [isAllowedHost_wf cfg resp.finalURL hw, hfil, hhost]
    rfl
  rw [crawlURL_disallowed cfg env u d v resp hd hc hr hf hs hallow]
  refine ⟨rfl, rfl, rfl, rfl, ?_⟩
  intro cfg2 s h2
  unfold isAllowedHost
  rw [if_pos h2]

/-- Witness for claim C4's theorem: `allowed_host = "example.com"` but the
final URL's host is `other.com`, so the Result carries the error. -/
theorem host_filter_disallowed_sets_error_witness :
    (crawlURL cfgH envH seedA 0 []).1.error =
      some (.disallowedHost (urlString respH.finalURL)) ∧
    (crawlURL cfgH envH seedA 0 []).1.content = [] ∧
    (crawlURL cfgH envH seedA 0 []).1.links = [] ∧
    (crawlURL cfgH envH seedA 0 []).1.summary = [] ∧
    (∀ (cfg2 : Config) (s : Str), cfg2.allowedHost.isEmpty = true →
      isAllowedHost cfg2 s = true) :=
  host_filter_disallowed_sets_error cfgH envH seedA 0 [] respH (by decide)
    rfl rfl rfl rfl (by rfl) (by rfl) (by rfl)

/-- Claim C5.  When fetch, host check, content-type check and rendering all
succeed but the summarizer fails, the Result still carries the rendered
content and the collected links, its summary is empty, and no Job-level
error is set (the failure is only logged, part_000 lines 215-221). -/
theorem summarizer_failure_keeps_content (cfg : Config) (env : PageEnv)
    (u : Str) (d : Nat) (v : List Str) (resp : FetchResp) (page : ParsedPage)
    (hd : d < cfg.maxDepth) (hc : env.cancelAtLimiter = false)
    (hr : env.reqCreateFails = false) (hf : env.fetch = .ok resp)
    (hs : resp.status = 200)
    (hh : isAllowedHost cfg (urlString resp.finalURL) = true)
    (hct : containsSub (toLowerStr resp.contentType) ("text/html".toList) = true)
    (hpg : env.render = .ok page) (hsm : env.summarize = .error ()) :
    (crawlURL cfg env u d v).1.content = page.text ∧
    (crawlURL cfg env u d v).1.links =
      (collectLinks v resp.finalURL page.links).1 ∧
    (crawlURL cfg env u d v).1.summary = [] ∧
    (crawlURL cfg env u d v).1.error = none := by
  rw [crawlURL_success cfg env u d v resp page hd hc hr hf hs hh hct hpg]
  refine ⟨rfl, rfl, ?_, rfl⟩
  dsimp only
  rw [hsm]
  by_cases ht : page.text.isEmpty = true
  · rw [if_pos ht]
  · rw [if_neg ht]

/-- Witness for claim C5's theorem: the concrete environment `envB` whose
summarizer fails while everything upstream succeeds. -/
theorem summarizer_failure_keeps_content_witness :
    (crawlURL cfgA envB seedA 0 []).1.content = pageA.text ∧
    (crawlURL cfgA envB seedA 0 []).1.links =
      (collectLinks [] respA.finalURL pageA.links).1 ∧
    (crawlURL cfgA envB seedA 0 []).1.summary = [] ∧
    (crawlURL cfgA envB seedA 0 []).1.error = none :=
  summarizer_failure_keeps_content cfgA envB seedA 0 [] respA pageA
    (by decide) rfl rfl rfl rfl (by rfl) (by rfl) rfl rfl

/-- Claim C6.  For non-empty, already-trimmed summarizer input: the text
passed downstream is exactly `truncateForPrompt` of the input; over the
12000-character ceiling this is the head slice and the tail slice of the
input, each of length 6000, joined by the `"\n...\n"` separator; input at or
below the ceiling passes through unmodified. -/
theorem summarizer_truncation_head_tail (text : Str)
    (htrim : trimSpaceStr text = text) (hne : text ≠ []) :
    summarizeInput text = some (truncateForPrompt text) ∧
    (summMaxLen < text.length →
      truncateForPrompt text =
        text.take (summMaxLen / 2) ++ "\n...\n".toList ++
          text.drop (text.length - summMaxLen / 2) ∧
      (text.take (summMaxLen / 2)).length = summMaxLen / 2 ∧
      (text.drop (text.length - summMaxLen / 2)).length = summMaxLen / 2) ∧
    (text.length ≤ summMaxLen → truncateForPrompt text = text) := by
  refine ⟨?_, ?_, ?_⟩
  · unfold summarizeInput
    rw [htrim, if_neg (by simp [List.isEmpty_iff, hne])]
  · intro hlong
    refine ⟨?_, ?_, ?_⟩
    · unfold truncateForPrompt
      rw [if_pos hlong]
    · rw [List.length_take]
      omega
    · rw [List.length_drop]
      omega
  · intro hshort
    unfold truncateForPrompt
    rw [if_neg (by omega)]

/-- Witness for claim C6's theorem at the concrete input `"ab"`. -/
theorem summarizer_truncation_head_tail_witness :
    summarizeInput ("ab".toList) = some (truncateForPrompt ("ab".toList)) ∧
    (summMaxLen < ("ab".toList).length →
      truncateForPrompt ("ab".toList) =
        ("ab".toList).take (summMaxLen / 2) ++ "\n...\n".toList ++
          ("ab".toList).drop (("ab".toList).length - summMaxLen / 2) ∧
      (("ab".toList).take (summMaxLen / 2)).length = summMaxLen / 2 ∧
      (("ab".toList).drop (("ab".toList).length - summMaxLen / 2)).length =
        summMaxLen / 2) ∧
    (("ab".toList).length ≤ summMaxLen → truncateForPrompt ("ab".toList) = "ab".toList) :=
  summarizer_truncation_head_tail ("ab".toList) (by rfl) (by decide)

/-- Unfolding of one step of the fuel-based retry recursion. -/
theorem runAttempts_succ (resp : Nat → Option Str) (m fuel attempt : Nat) :
    runAttempts resp m (fuel + 1) attempt =
      match resp attempt with
      | some s => { sleeps := [], attemptsMade := 1, outcome := some s }
      | none =>
        if m ≤ attempt then { sleeps := [], attemptsMade := 1, outcome := none }
        else
          { sleeps := attempt :: (runAttempts resp m fuel (attempt + 1)).sleeps,
            attemptsMade := (runAttempts resp m fuel (attempt + 1)).attemptsMade + 1,
            outcome := (runAttempts resp m fuel (attempt + 1)).outcome } := by
  rfl

/-- Complete evaluation of the retry phase by cases on the three attempt
outcomes supplied by the oracle. -/
theorem summarizeRetry_eval (resp : Nat → Option Str) :
    summarizeRetry resp =
      match resp 1 with
      | some s1 =>
        if s1.isEmpty then { sleeps := [], attemptsMade := 1, outcome := none }
        else { sleeps := [], attemptsMade := 1, outcome := some s1 }
      | none =>
        match resp 2 with
        | some s2 =>
          if s2.isEmpty then { sleeps := [1], attemptsMade := 2, outcome := none }
          else { sleeps := [1], attemptsMade := 2, outcome := some s2 }
        | none =>
          match resp 3 with
          | some s3 =>
            if s3.isEmpty then { sleeps := [1, 2], attemptsMade := 3, outcome := none }
            else { sleeps := [1, 2], attemptsMade := 3, outcome := some s3 }
          | none => { sleeps := [1, 2], attemptsMade := 3, outcome := none } := by
  unfold summarizeRetry
  rw [show (3 : Nat) = 2 + 1 from rfl, runAttempts_succ]
  cases h1 : resp 1 with
  | some s1 => rfl
  | none =>
      dsimp only
      rw [if_neg (by omega), show (2 : Nat) = 1 + 1 from rfl, runAttempts_succ]
      cases h2 : resp 2 with
      | some s2 => rfl
      | none =>
          dsimp only
          rw [if_neg (by omega), show (1 : Nat) = 0 + 1 from rfl, runAttempts_succ]
          cases h3 : resp 3 with
          | some s3 => rfl
          | none => rfl

/-- Claim C7 (amended).  The retry loop performs at most 3 attempts; it
sleeps `k` seconds after failed attempt `k` (so the sleep sequence is
`1, 2, …` up to one less than the number of attempts); a first-attempt
response that is non-empty is returned with no further attempts; and three
request failures are the terminal error.  (The original claim said a
terminal error is surfaced only after the final attempt fails; the post-loop
empty-summary check at factory.go lines 176-178 also turns a successful but
empty first response into a terminal error, with the remaining attempts
unused.) -/
theorem summarizer_retry_schedule (resp : Nat → Option Str) :
    (summarizeRetry resp).attemptsMade ≤ 3 ∧
    (summarizeRetry resp).sleeps =
      List.range' 1 ((summarizeRetry resp).attemptsMade - 1) ∧
    (∀ s, resp 1 = some s → s.isEmpty = false →
      summarizeRetry resp = { sleeps := [], attemptsMade := 1, outcome := some s }) ∧
    (resp 1 = none → resp 2 = none → resp 3 = none →
      summarizeRetry resp = { sleeps := [1, 2], attemptsMade := 3, outcome := none }) := by
  rw [summarizeRetry_eval resp]
  cases h1 : resp 1 with
  | some s1 =>
      dsimp only
      refine ⟨?_, ?_, ?_, ?_⟩
      · split
        · exact of_decide_eq_true rfl
        · exact of_decide_eq_true rfl
      · split
        · rfl
        · rfl
      · intro s hs hse
        cases hs
        rw [if_neg (by simp [hse])]
      · intro hn
        cases hn
  | none =>
      dsimp only
      cases h2 : resp 2 with
      | some s2 =>
          dsimp only
          refine ⟨?_, ?_, ?_, ?_⟩
          · split
            · exact of_decide_eq_true rfl
            · exact of_decide_eq_true rfl
          · split
            · rfl
            · rfl
          · intro s hs hse
            cases hs
          · intro _ hn
            cases hn
      | none =>
          dsimp only
          cases h3 : resp 3 with
          | some s3 =>
              dsimp only
              refine ⟨?_, ?_, ?_, ?_⟩
              · split
                · exact of_decide_eq_true rfl
                · exact of_decide_eq_true rfl
              · split
                · rfl
                · rfl
              · intro s hs hse
                cases hs
              · intro _ _ hn
                cases hn
          | none =>
              refine ⟨of_decide_eq_true rfl, rfl, ?_, fun _ _ _ => rfl⟩
              intro s hs hse
              cases hs

/-- Witness for claim C7's amended theorem: when every attempt's request
fails, the trace is three attempts, sleeps of 1 then 2 seconds, and a
terminal error. -/
theorem summarizer_retry_schedule_witness :
    summarizeRetry (fun _ => none) =
      { sleeps := [1, 2], attemptsMade := 3, outcome := none } :=
  (summarizer_retry_schedule (fun _ => none)).2.2.2 rfl rfl rfl

/-- Counterexample to claim C7 as stated: a first attempt whose request
succeeds with an empty response string is turned into a terminal error by
the post-loop check after a single attempt — the terminal error is not
surfaced "only after the final attempt fails", and the successful response
is not returned. -/
theorem summarizer_empty_response_cex :
    (fun _ => some ([] : Str)) 1 = some [] ∧
    summarizeRetry (fun _ => some []) =
      { sleeps := [], attemptsMade := 1, outcome := none } :=
  ⟨rfl, rfl⟩

/-- Claim C8.  A seed that fails to parse or parses to a non-absolute URL
makes `Crawl` return an error synchronously; a parsable absolute seed yields
a successful outcome in which `maxWorkers` workers are spawned, the seed is
the only dispatched Job (at depth 0), and — whenever at least one worker is
configured — the single seed send finds room in the jobs channel, so the
call returns without blocking. -/
theorem crawl_seed_validation (cfg : Config) (env : PageEnv) (cancel : Bool)
    (seed : Str) :
    ((parseURL seed = none ∨ ∃ u, parseURL seed = some u ∧ isAbs u = false) →
      ∃ msg, crawlRun cfg env cancel seed = .error msg) ∧
    (∀ u, parseURL seed = some u → isAbs u = true →
      ∃ o, crawlRun cfg env cancel seed = .ok o ∧
        o.workersSpawned = cfg.maxWorkers ∧
        o.dispatched = [(seed, 0)] ∧
        (1 ≤ cfg.maxWorkers → o.frontier = some [seed])) := by
  constructor
  · intro hbad
    unfold crawlRun
    rcases hbad with hp | ⟨u, hp, hna⟩
    · rw [hp]
      exact ⟨_, rfl⟩
    · rw [hp]
      dsimp only
      rw [if_pos (by simp [hna])]
      exact ⟨_, rfl⟩
  · intro u hp ha
    unfold crawlRun
    rw [hp]
    dsimp only
    rw [if_neg (by simp [ha])]
    refine ⟨_, rfl, rfl, rfl, ?_⟩
    intro hw
    unfold chanPush
    rw [if_pos (by simpa using hw)]
    rfl

/-- Witness for claim C8's theorem: the valid absolute seed
`http://example.com/a` with two configured workers. -/
theorem crawl_seed_validation_witness :
    ∃ o, crawlRun cfgA envA false seedA = .ok o ∧
      o.workersSpawned = cfgA.maxWorkers ∧
      o.dispatched = [(seedA, 0)] ∧
      (1 ≤ cfgA.maxWorkers → o.frontier = some [seedA]) :=
  (crawl_seed_validation cfgA envA false seedA).2 baseA (by rfl) (by rfl)

/-- Claim C9 (amended).  Link normalization (resolve against the base, print,
trim trailing slashes) is idempotent on every output that does not end in a
bare `#`, and appending a trailing slash to a link (with no query or
fragment part) does not change its normalization.  (The original claim
asserted unconditional idempotence; a link such as `http://a/x#/` normalizes
to `http://a/x#`, which re-normalizes to `http://a/x` — the first pass
strips the slash-only fragment body but leaves the `#`, which the second
pass drops, so applying normalize twice differs from applying it once.) -/
theorem normalize_idempotent_and_slash_insensitive :
    (∀ (base : GoURL), wfURL base = true → base.host.isEmpty = false →
      ∀ (link out : Str), cleanLink base link = some out →
        out.getLast? ≠ some '#' → cleanLink base out = some out) ∧
    (∀ (base : GoURL) (s : Str), trimSlashes s ≠ [] →
      s.all (fun c => !(c == '#') && !(c == '?')) = true →
      cleanLink base (s ++ ['/']) = cleanLink base s) :=
  ⟨fun base hb hbh link out h hnf =>
      cleanLink_idempotent base hb hbh link out h hnf,
   fun base s hne hclean => cleanLink_trailing_slash base s hne hclean⟩

/-- Witness for claim C9's amended theorem: idempotence at the concrete
normalized link `http://example.com/b`, and slash-insensitivity between
`http://example.com/b/` and `http://example.com/b`. -/
theorem normalize_idempotent_and_slash_insensitive_witness :
    cleanLink baseA ("http://example.com/b".toList) =
      some ("http://example.com/b".toList) ∧
    cleanLink baseA ("http://example.com/b".toList ++ ['/']) =
      cleanLink baseA ("http://example.com/b".toList) :=
  ⟨normalize_idempotent_and_slash_insensitive.1 baseA (by rfl) (by rfl)
      ("http://example.com/b".toList) ("http://example.com/b".toList)
      (by rfl) (by decide),
   normalize_idempotent_and_slash_insensitive.2 baseA
      ("http://example.com/b".toList) (by decide) (by decide)⟩

/-- Counterexample to claim C9 as stated: normalizing `http://a/x#/` gives
`http://a/x#`, and normalizing that output again gives `http://a/x`, so the
normalization is not idempotent. -/
theorem normalize_not_idempotent_cex :
    cleanLink baseA ("http://a/x#/".toList) = some ("http://a/x#".toList) ∧
    cleanLink baseA ("http://a/x#".toList) = some ("http://a/x".toList) ∧
    ("http://a/x#".toList : Str) ≠ ("http://a/x".toList : Str) :=
  ⟨rfl, rfl, by decide⟩

/-- Claim C10.  The visited map starts empty and the seed is never stored in
it — only links discovered on pages are recorded via `LoadOrStore` — so on a
successful crawl of the seed page, every discovered link that normalizes
(including one normalizing to the seed URL itself) passes the dedup check
and appears in the published Result's links. -/
theorem seed_not_in_dedup_store (cfg : Config) (env : PageEnv) (seed : Str)
    (o : CrawlOutcome) (resp : FetchResp) (page : ParsedPage)
    (h : crawlRun cfg env false seed = .ok o)
    (hd : 0 < cfg.maxDepth) (hc : env.cancelAtLimiter = false)
    (hr : env.reqCreateFails = false) (hf : env.fetch = .ok resp)
    (hs : resp.status = 200)
    (hh : isAllowedHost cfg (urlString resp.finalURL) = true)
    (hct : containsSub (toLowerStr resp.contentType) ("text/html".toList) = true)
    (hpg : env.render = .ok page) :
    ∃ r, o.published = [r] ∧
      ∀ l ns, l ∈ page.links → cleanLink resp.finalURL l = some ns →
        ns ∈ r.links := by
  unfold crawlRun at h
  cases hp : parseURL seed with
  | none =>
      rw [hp] at h
      exact absurd h (by simp)
  | some u =>
      rw [hp] at h
      dsimp only at h
      by_cases ha : isAbs u = true
      · rw [if_neg (by simp [ha])] at h
        simp only [Except.ok.injEq] at h
        subst h
        unfold processJob
        rw [crawlURL_success cfg env seed 0 [] resp page hd hc hr hf hs hh hct hpg]
        dsimp only
        refine ⟨_, rfl, ?_⟩
        intro l ns hmem hclean
        exact collectLinks_mem page.links [] resp.finalURL l ns hmem hclean rfl
      · rw [if_pos (by simpa using ha)] at h
        exact absurd h (by simp)

/-- Witness for claim C10's theorem: in the concrete successful crawl, the
discovered link `http://example.com/b` appears in the published Result's
links even though nothing was pre-recorded in the visited map. -/
theorem seed_not_in_dedup_store_witness :
    ∃ r, ({ workersSpawned := 2, frontier := some [seedA],
            dispatched := [(seedA, 0)],
            published := [{ url := seedA, content := "hello world".toList,
                            links := ["http://example.com/b".toList], depth := 0,
                            summary := "summary".toList, error := none }],
            finalVisited := ["http://example.com/b".toList] } : CrawlOutcome).published = [r] ∧
      ∀ l ns, l ∈ pageA.links → cleanLink respA.finalURL l = some ns →
        ns ∈ r.links :=
  seed_not_in_dedup_store cfgA envA seedA _ respA pageA (by rfl) (by decide)
    rfl rfl rfl rfl (by rfl) (by rfl) rfl

end Crawler
